import Mathlib

/-!
Verification development for `instinct-cli.py` (continuous-learning-v2 skill).

The core of the tool is modelled shallowly:
* Python `str` is modelled as `List Char`; all string primitives used by the
  source (`strip`, `split`, `startswith`, `lower`, `replace`, substring `in`)
  are defined below to match Python's semantics on the fragment the tool uses.
* Python numbers appearing in the confidence computation are modelled as `ℚ`
  (the source only manipulates small decimal constants; binary floating point
  representation is outside the model and noted where it could matter).
* Python exceptions are modelled with `Except String`: a `.error` value marks
  the exception class that the corresponding Python code would raise.
-/

set_option autoImplicit false

namespace InstinctCLI

/-- Python `str` modelled as a list of characters. -/
abbrev PyStr := List Char

/-- The whitespace characters stripped by Python `str.strip()` (ASCII fragment). -/
def isPyWs (c : Char) : Bool :=
  c = ' ' || c = '\t' || c = '\n' || c = '\r' || c = (Char.ofNat 11) || c = (Char.ofNat 12)

/-- Python `str.strip()`. -/
def pyStrip (s : PyStr) : PyStr :=
  ((s.dropWhile isPyWs).reverse.dropWhile isPyWs).reverse

/-- Python `str.lower()` (ASCII fragment). -/
def toLowerStr (s : PyStr) : PyStr := s.map Char.toLower

/-- Python `str.replace(old, new)` for a single-character `old` and `new`
(the source only replaces `"-"` and `"_"` by `" "`). -/
def pyReplaceChar (old new : Char) (s : PyStr) : PyStr :=
  s.map (fun c => if c = old then new else c)

/-- Split a string at the first occurrence of the character `c`:
Python `s.split(c, 1)` when `c` occurs in `s` (used under a `c in s` guard). -/
def splitFirstChar (c : Char) : PyStr → PyStr × PyStr
  | [] => ([], [])
  | x :: xs =>
    if x = c then ([], xs)
    else
      let p := splitFirstChar c xs
      (x :: p.1, p.2)

/-- Split a string at every occurrence of the character `c`:
Python `s.split(c)` for a one-character separator. -/
def splitChar (c : Char) : PyStr → List PyStr
  | [] => [[]]
  | x :: xs =>
    match splitChar c xs with
    | [] => [[]]
    | h :: t => if x = c then [] :: h :: t else (x :: h) :: t

/-- Find the first occurrence of (nonempty) `sep` in `s`; return the parts
before and after it. -/
def pySplitOnce (sep : PyStr) : PyStr → Option (PyStr × PyStr)
  | [] => if sep = [] then some ([], []) else none
  | x :: xs =>
    if sep.isPrefixOf (x :: xs) then some ([], (x :: xs).drop sep.length)
    else
      match pySplitOnce sep xs with
      | none => none
      | some (pre, post) => some (x :: pre, post)

/-- Python `s.split(sep, maxsplit)` for a nonempty separator. -/
def pySplit (sep : PyStr) (s : PyStr) (maxsplit : Nat) : List PyStr :=
  match maxsplit with
  | 0 => [s]
  | m + 1 =>
    match pySplitOnce sep s with
    | none => [s]
    | some (pre, post) => pre :: pySplit sep post m

/-- Python substring test `needle in hay`. -/
def containsSub (needle hay : PyStr) : Bool :=
  hay.tails.any (fun t => needle.isPrefixOf t)

/-! ### Python `float()` parsing -/

/-- Result of Python `float(value)` on a string: a finite value, an infinity,
a NaN, or a `ValueError`. -/
inductive FloatParseRes where
  | finite (q : ℚ)
  | infinite
  | nan
  | invalid
deriving DecidableEq

/-- The numeric value of a decimal digit character, if it is one. -/
def digitVal? (c : Char) : Option Nat :=
  if '0' ≤ c ∧ c ≤ '9' then some (c.toNat - 48) else none

/-- A Python numeric-literal digit run: decimal digits with single underscores
strictly between digits.  Returns the digit values with underscores removed. -/
def digitRun? : PyStr → Option (List Nat)
  | [] => none
  | c :: rest => do
    let d ← digitVal? c
    let ds ← digitRunTail rest
    pure (d :: ds)
where
  /-- Remaining characters of a digit run after an initial digit. -/
  digitRunTail : PyStr → Option (List Nat)
    | [] => some []
    | [c] => if c = '_' then none else do pure [← digitVal? c]
    | c :: c2 :: rest =>
      if c = '_' then do
        let d ← digitVal? c2
        let ds ← digitRunTail rest
        pure (d :: ds)
      else do
        let d ← digitVal? c
        let ds ← digitRunTail (c2 :: rest)
        pure (d :: ds)

/-- The number denoted by a big-endian list of digit values. -/
def digitsVal (ds : List Nat) : Nat :=
  ds.foldl (fun a d => 10 * a + d) 0

/-- Split at the first character satisfying `p`, if any. -/
def splitFirstBy (p : Char → Bool) : PyStr → PyStr × Option PyStr
  | [] => ([], none)
  | c :: rest =>
    if p c then ([], some rest)
    else
      let q := splitFirstBy p rest
      (c :: q.1, q.2)

/-- Parse the unsigned decimal part of a Python float literal:
`mantissa [eE exponent]`, mantissa `digits [. digits]` with at least one digit. -/
def parsePyDecimal (s : PyStr) : Option ℚ :=
  let me := splitFirstBy (fun c => c = 'e' || c = 'E') s
  let expVal? : Option Int :=
    match me.2 with
    | none => some 0
    | some e =>
      match e with
      | '+' :: r => (digitRun? r).map (fun ds => (digitsVal ds : Int))
      | '-' :: r => (digitRun? r).map (fun ds => -(digitsVal ds : Int))
      | r => (digitRun? r).map (fun ds => (digitsVal ds : Int))
  let ifp := splitFirstBy (fun c => c = '.') me.1
  let ipds? : Option (List Nat) := if ifp.1 = [] then some [] else digitRun? ifp.1
  let fpds? : Option (List Nat) :=
    match ifp.2 with
    | none => some []
    | some [] => some []
    | some fp => digitRun? fp
  match ipds?, fpds?, expVal? with
  | some ipds, some fpds, some ex =>
    if ifp.1 = [] ∧ (ifp.2 = none ∨ ifp.2 = some []) then none
    else
      some (((digitsVal ipds : ℚ) + (digitsVal fpds : ℚ) / (10 : ℚ) ^ fpds.length)
              * (10 : ℚ) ^ ex)
  | _, _, _ => none

/-- Strip the optional sign of a Python float literal: the negative flag and
the remaining characters. -/
def splitSign (s : PyStr) : Bool × PyStr :=
  match s with
  | '+' :: r => (false, r)
  | '-' :: r => (true, r)
  | r => (false, r)

/-- Python `float(value)` on a string. -/
def pyFloatParse (s : PyStr) : FloatParseRes :=
  let s := pyStrip s
  let sb := splitSign s
  let lb := toLowerStr sb.2
  if lb = ('i' :: 'n' :: 'f' :: []) ∨ lb = ('i' :: 'n' :: 'f' :: 'i' :: 'n' :: 'i' :: 't' :: 'y' :: []) then
    .infinite
  else if lb = ('n' :: 'a' :: 'n' :: []) then .nan
  else
    match parsePyDecimal sb.2 with
    | some q => .finite (if sb.1 then -q else q)
    | none => .invalid

/-! ### Rendering numbers back to text (Python `str`) -/

/-- Little-endian decimal digits, by fuel (kernel-reducible; agrees with
`Nat.digits 10`, see `natDigitsLE_eq_digits`). -/
def natDigitsAux : Nat → Nat → List Nat
  | 0, _ => []
  | _ + 1, 0 => []
  | fuel + 1, n => n % 10 :: natDigitsAux fuel (n / 10)

/-- Little-endian decimal digits of a natural number. -/
def natDigitsLE (n : Nat) : List Nat := natDigitsAux n n

/-- Big-endian decimal digit characters of a natural number (Python `str` of a
nonnegative integer). -/
def natToDigitChars (n : Nat) : PyStr :=
  if n = 0 then ['0']
  else (natDigitsLE n).reverse.map (fun d => Char.ofNat (48 + d))

/-- Python `str` of an integer. -/
def intToChars (n : Int) : PyStr :=
  (if n < 0 then ['-'] else []) ++ natToDigitChars n.natAbs

/-- Smallest positive `k` (searched up to 64) with `den ∣ 10 ^ k`: the number
of decimal digits needed after the point to write `1/den` exactly. -/
def decExp? (den : Nat) : Option Nat :=
  ((List.range 64).find? (fun k => decide (den ∣ 10 ^ (k + 1)))).map (· + 1)

/-- Python `str` of a float, for values with an exact short decimal expansion
(the only floats the tool produces; Python's scientific notation for very
large/small magnitudes is outside the model). -/
def renderFloat (q : ℚ) : PyStr :=
  match decExp? q.den with
  | none => ['?']
  | some k =>
    let total := q.num.natAbs * 10 ^ k / q.den
    let ipart := total / 10 ^ k
    let fpart := total % 10 ^ k
    let fdigits := (natToDigitChars (10 ^ k + fpart)).drop 1
    (if q.num < 0 then ['-'] else []) ++ natToDigitChars ipart ++ '.' :: fdigits

/-! ### Metadata values and coercion (`parse_frontmatter` value handling) -/

/-- A frontmatter metadata value: Python `int`, `float`, `bool` or `str`. -/
inductive Value where
  | int (n : Int)
  | float (q : ℚ)
  | bool (b : Bool)
  | str (s : PyStr)
deriving DecidableEq

/-- Python `str(v)` / f-string rendering of a metadata value. -/
def renderValue : Value → PyStr
  | .int n => intToChars n
  | .float q => renderFloat q
  | .bool true => 'T' :: 'r' :: 'u' :: 'e' :: []
  | .bool false => 'F' :: 'a' :: 'l' :: 's' :: 'e' :: []
  | .str s => s

/--
Value coercion of `parse_frontmatter`:
```python
try:
    value = float(value)
    if value == int(value):
        value = int(value)
except ValueError:
    if value.lower() == "true": value = True
    elif value.lower() == "false": value = False
```
`float("inf")` succeeds and then `int(value)` raises an uncaught
`OverflowError`; `float("nan")` succeeds, `int(value)` raises `ValueError`,
and the handler then calls `.lower()` on a float, raising an uncaught
`AttributeError`.  Both exceptions are modelled as `.error`.
-/
def coerceValue (v : PyStr) : Except String Value :=
  match pyFloatParse v with
  | .finite q => .ok (if q.den = 1 then .int q.num else .float q)
  | .infinite => .error "OverflowError"
  | .nan => .error "AttributeError"
  | .invalid =>
    if toLowerStr v = ('t' :: 'r' :: 'u' :: 'e' :: []) then .ok (.bool true)
    else if toLowerStr v = ('f' :: 'a' :: 'l' :: 's' :: 'e' :: []) then .ok (.bool false)
    else .ok (.str v)

/-- Decidable equality for `Except` results (components decidable). -/
instance {ε α : Type} [DecidableEq ε] [DecidableEq α] : DecidableEq (Except ε α) := fun x y =>
  match x, y with
  | .ok a, .ok b =>
    if h : a = b then .isTrue (by rw [h]) else .isFalse (fun he => h (Except.ok.inj he))
  | .error a, .error b =>
    if h : a = b then .isTrue (by rw [h]) else .isFalse (fun he => h (Except.error.inj he))
  | .ok _, .error _ => .isFalse (fun he => Except.noConfusion he)
  | .error _, .ok _ => .isFalse (fun he => Except.noConfusion he)

/-- Python dict assignment `d[k] = v` on an insertion-ordered association
list: replaces the value in place if the key is present, else appends. -/
def setVal {α : Type} : List (PyStr × α) → PyStr → α → List (PyStr × α)
  | [], k, v => [(k, v)]
  | (k', v') :: rest, k, v =>
    if k' = k then (k, v) :: rest else (k', v') :: setVal rest k v

/-- Python dict lookup `d.get(k)` on an association list. -/
def lookupVal {α : Type} : List (PyStr × α) → PyStr → Option α
  | [], _ => none
  | (k', v) :: rest, k => if k' = k then some v else lookupVal rest k

/-- The frontmatter key/value loop of `parse_frontmatter`:
```python
for line in frontmatter.split("\n"):
    line = line.strip()
    if ":" in line:
        key, value = line.split(":", 1)
        key = key.strip(); value = value.strip()
        ...coercion...
        metadata[key] = value
```
-/
def parseFMLine (acc : List (PyStr × Value)) (line : PyStr) :
    Except String (List (PyStr × Value)) :=
  let line := pyStrip line
  if line.contains ':' then
    let kv := splitFirstChar ':' line
    match coerceValue (pyStrip kv.2) with
    | .ok v => pure (setVal acc (pyStrip kv.1) v)
    | .error e => .error e
  else pure acc

def parseFMLines (lines : List PyStr) : Except String (List (PyStr × Value)) :=
  lines.foldlM parseFMLine []

/-- The three-hyphen frontmatter delimiter. -/
def dashes : PyStr := '-' :: '-' :: '-' :: []

/-- `parse_frontmatter(content)`: decode a markdown instinct file into
`(metadata, body)`.  A `.error` result marks an uncaught Python exception. -/
def parse_frontmatter (content : PyStr) : Except String (List (PyStr × Value) × PyStr) :=
  if dashes.isPrefixOf content then
    match pySplit dashes content 2 with
    | [_, fm, rest] => do
      let metadata ← parseFMLines (splitChar '\n' (pyStrip fm))
      pure (metadata, pyStrip rest)
    | _ => .ok ([], content)
  else .ok ([], content)

/-- Join with newlines: Python `"\n".join(lines)`. -/
def joinNl : List PyStr → PyStr
  | [] => []
  | [l] => l
  | l :: l2 :: rest => l ++ '\n' :: joinNl (l2 :: rest)

/-- One rebuilt frontmatter line `f"{k}: {v}"`. -/
def renderLine (k : PyStr) (v : Value) : PyStr :=
  k ++ ':' :: ' ' :: renderValue v

/-- The file-rebuild step of `cmd_evolve`:
```python
fm_lines = ["---"] + [f"{k}: {v}" for k, v in metadata.items()] + ["---"]
new_content = "\n".join(fm_lines) + "\n\n" + body + "\n"
```
-/
def encodeRecord (metadata : List (PyStr × Value)) (body : PyStr) : PyStr :=
  joinNl (dashes :: metadata.map (fun e => renderLine e.1 e.2) ++ [dashes])
    ++ '\n' :: '\n' :: body ++ ['\n']

/-! ### JSON values, `json.dumps`, `json.loads` -/

/-- A JSON value as Python's `json` module produces it (`int` and `float` are
distinct, objects are insertion-ordered dicts).  The nonstandard
`NaN`/`Infinity` extension of `json.loads` is outside the model. -/
inductive Json where
  | null
  | bool (b : Bool)
  | int (n : Int)
  | float (q : ℚ)
  | str (s : PyStr)
  | arr (elems : List Json)
  | obj (entries : List (PyStr × Json))

/-- One lowercase hexadecimal digit. -/
def hexDigit (n : Nat) : Char :=
  if n < 10 then Char.ofNat (48 + n) else Char.ofNat (87 + n)

/-- `json.dumps` escaping for one character of a string
(default `ensure_ascii=True`; code points above `0xFFFF` would use surrogate
pairs, outside the model). -/
def escJsonChar (c : Char) : PyStr :=
  if c = '"' then '\\' :: '"' :: []
  else if c = '\\' then '\\' :: '\\' :: []
  else if c = '\n' then '\\' :: 'n' :: []
  else if c = '\t' then '\\' :: 't' :: []
  else if c = '\r' then '\\' :: 'r' :: []
  else if c = Char.ofNat 8 then '\\' :: 'b' :: []
  else if c = Char.ofNat 12 then '\\' :: 'f' :: []
  else if c.toNat < 32 ∨ 127 ≤ c.toNat then
    '\\' :: 'u' :: hexDigit (c.toNat / 4096 % 16) :: hexDigit (c.toNat / 256 % 16)
      :: hexDigit (c.toNat / 16 % 16) :: hexDigit (c.toNat % 16) :: []
  else [c]

/-- `json.dumps` of a string (with the surrounding quotes). -/
def dumpJsonStr (s : PyStr) : PyStr :=
  '"' :: (s.map escJsonChar).flatten ++ ['"']

/-- Comma-join with `", "`, the default `json.dumps` item separator. -/
def joinComma : List PyStr → PyStr
  | [] => []
  | [l] => l
  | l :: l2 :: rest => l ++ ',' :: ' ' :: joinComma (l2 :: rest)

mutual

/-- `json.dumps(obs)` with default options. -/
def jsonDumps : Json → PyStr
  | .null => 'n' :: 'u' :: 'l' :: 'l' :: []
  | .bool true => 't' :: 'r' :: 'u' :: 'e' :: []
  | .bool false => 'f' :: 'a' :: 'l' :: 's' :: 'e' :: []
  | .int n => intToChars n
  | .float q => renderFloat q
  | .str s => dumpJsonStr s
  | .arr es => '[' :: joinComma (jsonDumpsArr es) ++ [']']
  | .obj kvs => '{' :: joinComma (jsonDumpsObj kvs) ++ ['}']

/-- `json.dumps` of the elements of an array. -/
def jsonDumpsArr : List Json → List PyStr
  | [] => []
  | j :: js => jsonDumps j :: jsonDumpsArr js

/-- `json.dumps` of the `"key": value` items of an object. -/
def jsonDumpsObj : List (PyStr × Json) → List PyStr
  | [] => []
  | (k, j) :: rest => (dumpJsonStr k ++ ':' :: ' ' :: jsonDumps j) :: jsonDumpsObj rest

end

/-- JSON insignificant whitespace. -/
def skipJsonWs (s : PyStr) : PyStr :=
  s.dropWhile (fun c => c = ' ' || c = '\t' || c = '\n' || c = '\r')

/-- Parse the body of a JSON string literal (after the opening quote);
returns the decoded characters and the input after the closing quote. -/
def parseJsonStrBody (fuel : Nat) (s : PyStr) : Option (PyStr × PyStr) :=
  match fuel, s with
  | 0, _ => none
  | _, [] => none
  | fuel + 1, c :: rest =>
    if c = '"' then some ([], rest)
    else if c = '\\' then
      match rest with
      | 'n' :: r => (parseJsonStrBody fuel r).map (fun p => ('\n' :: p.1, p.2))
      | 't' :: r => (parseJsonStrBody fuel r).map (fun p => ('\t' :: p.1, p.2))
      | 'r' :: r => (parseJsonStrBody fuel r).map (fun p => ('\r' :: p.1, p.2))
      | 'b' :: r => (parseJsonStrBody fuel r).map (fun p => (Char.ofNat 8 :: p.1, p.2))
      | 'f' :: r => (parseJsonStrBody fuel r).map (fun p => (Char.ofNat 12 :: p.1, p.2))
      | '/' :: r => (parseJsonStrBody fuel r).map (fun p => ('/' :: p.1, p.2))
      | '"' :: r => (parseJsonStrBody fuel r).map (fun p => ('"' :: p.1, p.2))
      | '\\' :: r => (parseJsonStrBody fuel r).map (fun p => ('\\' :: p.1, p.2))
      | 'u' :: a :: b :: c2 :: d :: r =>
        match hexVal? a, hexVal? b, hexVal? c2, hexVal? d with
        | some ha, some hb, some hc, some hd =>
          (parseJsonStrBody fuel r).map
            (fun p => (Char.ofNat (4096 * ha + 256 * hb + 16 * hc + hd) :: p.1, p.2))
        | _, _, _, _ => none
      | _ => none
    else if c.toNat < 32 then none
    else (parseJsonStrBody fuel rest).map (fun p => (c :: p.1, p.2))
where
  /-- Hexadecimal digit value. -/
  hexVal? (c : Char) : Option Nat :=
    if '0' ≤ c ∧ c ≤ '9' then some (c.toNat - 48)
    else if 'a' ≤ c ∧ c ≤ 'f' then some (c.toNat - 87)
    else if 'A' ≤ c ∧ c ≤ 'F' then some (c.toNat - 55)
    else none

/-- Plain JSON digit span (no underscores, unlike Python float literals). -/
def spanDigits (s : PyStr) : List Nat × PyStr :=
  match s with
  | [] => ([], [])
  | c :: rest =>
    match digitVal? c with
    | some d =>
      let p := spanDigits rest
      (d :: p.1, p.2)
    | none => ([], c :: rest)

/-- Optional fraction part `. digits` of a JSON number.  `none` marks a
malformed fraction (a dot not followed by digits). -/
def parseJsonFrac : PyStr → Option (Option (List Nat) × PyStr)
  | '.' :: r =>
    let q := spanDigits r
    if q.1 = [] then none else some (some q.1, q.2)
  | r => some (none, r)

/-- Optional exponent part `[eE] [+-] digits` of a JSON number.  `none` marks
a malformed exponent. -/
def parseJsonExp : PyStr → Option (Option Int × PyStr)
  | 'e' :: r => parseJsonExpTail r
  | 'E' :: r => parseJsonExpTail r
  | r => some (none, r)
where
  /-- Signed digits after `e`/`E`. -/
  parseJsonExpTail (r : PyStr) : Option (Option Int × PyStr) :=
    let sb : Bool × PyStr :=
      match r with
      | '+' :: r' => (false, r')
      | '-' :: r' => (true, r')
      | r' => (false, r')
    let ds := spanDigits sb.2
    if ds.1 = [] then none
    else some (some (if sb.1 then -(digitsVal ds.1 : Int) else (digitsVal ds.1 : Int)), ds.2)

/-- Parse a JSON number per RFC 8259 grammar; `int` if it has neither a
fraction nor an exponent, `float` otherwise (matching `json.loads`). -/
def parseJsonNumber (s : PyStr) : Option (Json × PyStr) :=
  let sb : Bool × PyStr := match s with | '-' :: r => (true, r) | r => (false, r)
  let ip := spanDigits sb.2
  if ip.1 = [] then none
  else if ip.1.head? = some 0 ∧ ip.1.length ≠ 1 then none
  else
    match parseJsonFrac ip.2 with
    | none => none
    | some (fdigits?, afterFrac) =>
      match parseJsonExp afterFrac with
      | none => none
      | some (expVal?, rest) =>
        if fdigits? = none ∧ expVal? = none then
          some (.int (if sb.1 then -(digitsVal ip.1 : Int) else (digitsVal ip.1 : Int)), rest)
        else
          let fds := fdigits?.getD []
          let mag : ℚ :=
            ((digitsVal ip.1 : ℚ) + (digitsVal fds : ℚ) / (10 : ℚ) ^ fds.length)
              * (10 : ℚ) ^ (expVal?.getD 0)
          some (.float (if sb.1 then -mag else mag), rest)


/-- Rebuild a Python dict from parsed object items in order:
later duplicate keys overwrite earlier ones. -/
def objFromItems (items : List (PyStr × Json)) : List (PyStr × Json) :=
  items.foldl (fun d kv => setVal d kv.1 kv.2) []

mutual

/-- Fueled recursive-descent parser for one JSON value; returns the value and
the remaining input.  Fuel strictly decreases on every recursive call; the
top-level wrapper supplies enough fuel for any input. -/
def parseJsonVal (fuel : Nat) (s : PyStr) : Option (Json × PyStr) :=
  match fuel with
  | 0 => none
  | fuel + 1 =>
    match skipJsonWs s with
    | 'n' :: 'u' :: 'l' :: 'l' :: r => some (.null, r)
    | 't' :: 'r' :: 'u' :: 'e' :: r => some (.bool true, r)
    | 'f' :: 'a' :: 'l' :: 's' :: 'e' :: r => some (.bool false, r)
    | '"' :: r => (parseJsonStrBody r.length r).map (fun p => (.str p.1, p.2))
    | '[' :: r =>
      match skipJsonWs r with
      | ']' :: r2 => some (.arr [], r2)
      | r2 => (parseJsonArrItems fuel r2).map (fun p => (.arr p.1, p.2))
    | '{' :: r =>
      match skipJsonWs r with
      | '}' :: r2 => some (.obj [], r2)
      | r2 => (parseJsonObjItems fuel r2).map (fun p => (.obj (objFromItems p.1), p.2))
    | r => parseJsonNumber r

/-- Comma-separated array items up to the closing bracket. -/
def parseJsonArrItems (fuel : Nat) (s : PyStr) : Option (List Json × PyStr) :=
  match fuel with
  | 0 => none
  | fuel + 1 =>
    match parseJsonVal fuel s with
    | none => none
    | some (v, rest) =>
      match skipJsonWs rest with
      | ',' :: r2 => (parseJsonArrItems fuel r2).map (fun p => (v :: p.1, p.2))
      | ']' :: r2 => some ([v], r2)
      | _ => none

/-- Comma-separated `"key": value` object items up to the closing brace,
in source order (duplicates resolved by `objFromItems`). -/
def parseJsonObjItems (fuel : Nat) (s : PyStr) : Option (List (PyStr × Json) × PyStr) :=
  match fuel with
  | 0 => none
  | fuel + 1 =>
    match skipJsonWs s with
    | '"' :: r =>
      match parseJsonStrBody r.length r with
      | none => none
      | some (k, rest) =>
        match skipJsonWs rest with
        | ':' :: r2 =>
          match parseJsonVal fuel r2 with
          | none => none
          | some (v, rest2) =>
            match skipJsonWs rest2 with
            | ',' :: r3 => (parseJsonObjItems fuel r3).map (fun p => ((k, v) :: p.1, p.2))
            | '}' :: r3 => some ([(k, v)], r3)
            | _ => none
        | _ => none
    | _ => none

end

/-- `json.loads(line)`: parse a complete JSON document; `none` models
`json.JSONDecodeError` (raised on trailing garbage as well). -/
def jsonLoads (s : PyStr) : Option Json :=
  match parseJsonVal (s.length + 1) s with
  | some (v, rest) => if skipJsonWs rest = [] then some v else none
  | none => none

/-- The observation-log loading loop of `cmd_evolve`:
```python
for line in f:
    line = line.strip()
    if line:
        try: observations.append(json.loads(line))
        except json.JSONDecodeError: continue
```
-/
def loadObservations (lines : List PyStr) : List Json :=
  lines.filterMap (fun line =>
    let line := pyStrip line
    if line = [] then none else jsonLoads line)


/-- The `"confidence"` metadata key. -/
def confidenceKey : PyStr :=
  'c' :: 'o' :: 'n' :: 'f' :: 'i' :: 'd' :: 'e' :: 'n' :: 'c' :: 'e' :: []

/-- The `"last_evolved"` metadata key. -/
def lastEvolvedKey : PyStr :=
  'l' :: 'a' :: 's' :: 't' :: '_' :: 'e' :: 'v' :: 'o' :: 'l' :: 'v' :: 'e' :: 'd' :: []

/-- The `"name"` metadata key. -/
def nameKey : PyStr := 'n' :: 'a' :: 'm' :: 'e' :: []

/-- The `"tool"` metadata key. -/
def toolKey : PyStr := 't' :: 'o' :: 'o' :: 'l' :: []

/-! ### The confidence evolution engine (`cmd_evolve` per-record logic) -/

/-- The piecewise confidence update of `cmd_evolve`:
```python
if relevant_count == 0:   new_confidence = max(0.1, old_confidence - 0.05)
elif relevant_count <= 3: new_confidence = min(0.5, old_confidence + 0.05)
elif relevant_count <= 6: new_confidence = min(0.7, old_confidence + 0.1)
else:                     new_confidence = min(0.85, old_confidence + 0.15)
```
-/
def newConfidence (old_confidence : ℚ) (relevant_count : Nat) : ℚ :=
  if relevant_count = 0 then max 0.1 (old_confidence - 0.05)
  else if relevant_count ≤ 3 then min 0.5 (old_confidence + 0.05)
  else if relevant_count ≤ 6 then min 0.7 (old_confidence + 0.1)
  else min 0.85 (old_confidence + 0.15)

/-- Round to the nearest integer, ties to even (Python `round` on exact
halves; floating-point representation noise is outside the model). -/
def roundHalfEven (q : ℚ) : Int :=
  let f := ⌊q⌋
  let r := q - f
  if r < 1 / 2 then f
  else if 1 / 2 < r then f + 1
  else if f % 2 = 0 then f else f + 1

/-- Python `round(x, 2)`. -/
def pyRound2 (q : ℚ) : ℚ := (roundHalfEven (q * 100) : ℚ) / 100

/-- Python `float(v)` on a metadata value.  `float` of a string that survived
frontmatter coercion as a string always raises `ValueError` (a string that
parsed as a number would have been coerced to one). -/
def pyFloat (v : Value) : Except String ℚ :=
  match v with
  | .int n => .ok n
  | .float q => .ok q
  | .bool b => .ok (if b then 1 else 0)
  | .str s =>
    match pyFloatParse s with
    | .finite q => .ok q
    | .invalid => .error "ValueError"
    | _ => .error "NonFiniteFloat"

/-- `old_confidence = float(metadata.get("confidence", 0.3))`. -/
def oldConfidenceOf (metadata : List (PyStr × Value)) : Except String ℚ :=
  pyFloat ((lookupVal metadata confidenceKey).getD (.float (3 / 10)))

/-- Keyword derivation of `cmd_evolve`:
```python
name = metadata.get("name", instinct_path.stem)
keywords = [name.lower().replace("-", " ").replace("_", " ")]
if "tool" in metadata:
    keywords.append(str(metadata["tool"]).lower())
```
`name.lower()` on a non-string raises an uncaught `AttributeError`. -/
def keywordsOf (metadata : List (PyStr × Value)) (stem : PyStr) : Except String (List PyStr) := do
  let name ← match lookupVal metadata nameKey with
    | none => Except.ok stem
    | some (.str s) => Except.ok s
    | some _ => Except.error "AttributeError"
  let base := pyReplaceChar '_' ' ' (pyReplaceChar '-' ' ' (toLowerStr name))
  match lookupVal metadata toolKey with
  | some v => pure [base, toLowerStr (renderValue v)]
  | none => pure [base]

/-- Relevance counting of `cmd_evolve`:
```python
for obs in observations:
    obs_str = json.dumps(obs).lower()
    if any(kw in obs_str for kw in keywords):
        relevant_count += 1
```
-/
def relevantCount (keywords : List PyStr) (observations : List Json) : Nat :=
  observations.countP (fun obs =>
    keywords.any (fun kw => containsSub kw (toLowerStr (jsonDumps obs))))

/-- The change-detection and rewrite step of `cmd_evolve`: returns whether the
record evolved and, if so, the new file content.
```python
if abs(new_confidence - old_confidence) > 0.001:
    metadata["confidence"] = round(new_confidence, 2)
    metadata["last_evolved"] = time.strftime("%Y-%m-%dT%H:%M:%S%z")
    ...rebuild and write new_content...
```
The wall-clock timestamp is passed in as `ts`. -/
def applyEvolution (metadata : List (PyStr × Value)) (body : PyStr)
    (old_confidence new_confidence : ℚ) (ts : PyStr) : Bool × Option PyStr :=
  if 1 / 1000 < |new_confidence - old_confidence| then
    let md := setVal metadata confidenceKey (.float (pyRound2 new_confidence))
    let md := setVal md lastEvolvedKey (.str ts)
    (true, some (encodeRecord md body))
  else (false, none)

/-- One record of the `cmd_evolve` loop: decode the file, derive keywords,
count relevant observations, update the confidence.  `stem` is the filename
stem, `ts` the current timestamp.  `.error` marks an uncaught exception. -/
def evolveRecord (stem content : PyStr) (observations : List Json) (ts : PyStr) :
    Except String (Bool × Option PyStr) := do
  let mb ← parse_frontmatter content
  let old_confidence ← oldConfidenceOf mb.1
  let keywords ← keywordsOf mb.1 stem
  let relevant_count := relevantCount keywords observations
  let new_confidence := newConfidence old_confidence relevant_count
  pure (applyEvolution mb.1 mb.2 old_confidence new_confidence ts)

/-- The whole `cmd_evolve` pass over a list of `(stem, content)` records with
the raw observation-log lines: an uncaught exception in one record aborts the
pass (later records are not processed). -/
def cmd_evolve (records : List (PyStr × PyStr)) (log_lines : List PyStr) (ts : PyStr) :
    Except String (List (PyStr × Bool × Option PyStr)) :=
  let observations := loadObservations log_lines
  records.mapM (fun r => (evolveRecord r.1 r.2 observations ts).map (fun e => (r.1, e)))

/-- The stored confidence of a record after one zero-relevance evolution pass
(decay): rewrite only when the change exceeds the noise guard. -/
def decayStep (c : ℚ) : ℚ :=
  let n := newConfidence c 0
  if 1 / 1000 < |n - c| then pyRound2 n else c

/-- The stored confidence after `k` zero-relevance evolution passes. -/
def iterDecay (k : Nat) (c : ℚ) : ℚ := decayStep^[k] c

/-! ### String lemmas for the codec round-trip -/

/-- The normalization the codec applies on a decode/encode cycle: floats
with integral value re-enter as integers, everything else is unchanged. -/
def normalizeValue : Value → Value
  | .float q => if q.den = 1 then .int q.num else .float q
  | v => v

theorem length_dropWhile_ws_le (l : PyStr) : (l.dropWhile isPyWs).length ≤ l.length := by
  induction l with
  | nil => simp
  | cons a l ih =>
    by_cases h : isPyWs a <;> simp [List.dropWhile_cons, h] <;> omega

theorem pyStrip_length_le (st : PyStr) : (pyStrip st).length ≤ st.length := by
  unfold pyStrip
  calc ((st.dropWhile isPyWs).reverse.dropWhile isPyWs).reverse.length
      = ((st.dropWhile isPyWs).reverse.dropWhile isPyWs).length := List.length_reverse _
    _ ≤ (st.dropWhile isPyWs).reverse.length := length_dropWhile_ws_le _
    _ = (st.dropWhile isPyWs).length := List.length_reverse _
    _ ≤ st.length := length_dropWhile_ws_le _

theorem pyStrip_cons_ws (c : Char) (st : PyStr) (h : isPyWs c = true) :
    pyStrip (c :: st) = pyStrip st := by
  unfold pyStrip
  rw [List.dropWhile_cons_of_pos h]

/-- Left-strip distributes over append: it eats into the right part exactly
when the left part is all whitespace. -/
theorem dropWhile_ws_append (a b : PyStr) :
    (a ++ b).dropWhile isPyWs
      = if a.dropWhile isPyWs = [] then b.dropWhile isPyWs
        else a.dropWhile isPyWs ++ b := by
  induction a with
  | nil => simp
  | cons c a ih =>
    by_cases h : isPyWs c
    · simpa [List.dropWhile_cons_of_pos h] using ih
    · simp [List.dropWhile_cons_of_neg h, h]

theorem pyStrip_append_ws (st : PyStr) (c : Char) (h : isPyWs c = true) :
    pyStrip (st ++ [c]) = pyStrip st := by
  unfold pyStrip
  rw [dropWhile_ws_append]
  by_cases ha : st.dropWhile isPyWs = []
  · simp [ha, h, List.dropWhile_cons_of_pos]
  · rw [if_neg ha, List.reverse_append]
    simp [List.dropWhile_cons_of_pos h]

theorem mem_of_getLast?_eq (l : PyStr) (c : Char) (h : l.getLast? = some c) :
    c ∈ l := by
  have h2 := List.dropLast_append_getLast? c (Option.mem_def.mpr h)
  rw [← h2]
  simp

theorem pyStrip_eq_self_of (st : PyStr)
    (h1 : ∀ c, st.head? = some c → isPyWs c = false)
    (h2 : ∀ c, st.getLast? = some c → isPyWs c = false) :
    pyStrip st = st := by
  cases st with
  | nil => rfl
  | cons c rest =>
    unfold pyStrip
    rw [List.dropWhile_cons_of_neg (by simp [h1 c rfl])]
    have hne : c :: rest ≠ ([] : PyStr) := by simp
    have hlast := h2 ((c :: rest).getLast hne) (List.getLast?_eq_getLast _ hne)
    cases hrev : (c :: rest).reverse with
    | nil => exact absurd (congrArg List.length hrev) (by simp)
    | cons d tail =>
      have hd : d = (c :: rest).getLast hne := by
        have hh := List.head?_reverse (c :: rest)
        rw [hrev, List.getLast?_eq_getLast _ hne] at hh
        exact Option.some.inj hh
      rw [List.dropWhile_cons_of_neg (by rw [hd]; simp [hlast])]
      rw [← hrev, List.reverse_reverse]

theorem pyStrip_eq_self_of_all (st : PyStr)
    (h : ∀ c ∈ st, isPyWs c = false) : pyStrip st = st := by
  refine pyStrip_eq_self_of st (fun c hc => ?_) (fun c hc => ?_)
  · exact h c (List.mem_of_mem_head? (Option.mem_def.mpr hc))
  · exact h c (mem_of_getLast?_eq _ _ hc)

/-- A string equal to its own strip has a non-whitespace first character. -/
theorem head_of_pyStrip_eq_self (st : PyStr) (h : pyStrip st = st)
    (c : Char) (hc : st.head? = some c) : isPyWs c = false := by
  cases hw : isPyWs c
  · rfl
  · exfalso
    cases st with
    | nil => exact Option.noConfusion hc
    | cons d rest =>
      have hd : d = c := by simpa using hc
      subst hd
      have hstep := pyStrip_cons_ws d rest hw
      rw [h] at hstep
      have hlen := pyStrip_length_le rest
      rw [← hstep] at hlen
      simp at hlen

/-- A string equal to its own strip has a non-whitespace last character. -/
theorem getLast_of_pyStrip_eq_self (st : PyStr) (h : pyStrip st = st)
    (c : Char) (hc : st.getLast? = some c) : isPyWs c = false := by
  cases hw : isPyWs c
  · rfl
  · exfalso
    have hsplit := List.dropLast_append_getLast? c (Option.mem_def.mpr hc)
    have hstep := pyStrip_append_ws st.dropLast c hw
    rw [hsplit, h] at hstep
    have hlen := pyStrip_length_le st.dropLast
    rw [← hstep] at hlen
    have hne : st ≠ [] := by
      intro he
      rw [he] at hc
      exact Option.noConfusion hc
    rw [List.length_dropLast] at hlen
    have : 1 ≤ st.length := by
      cases st with
      | nil => exact absurd rfl hne
      | cons a l => simp
    omega


theorem containsSub_eq_true_iff (n h : PyStr) :
    containsSub n h = true ↔ n <:+: h := by
  unfold containsSub
  rw [List.any_eq_true]
  constructor
  · rintro ⟨t, ht, hp⟩
    exact List.infix_iff_prefix_suffix.mpr
      ⟨t, List.isPrefixOf_iff_prefix.mp hp, (List.mem_tails _ _).mp ht⟩
  · intro hinf
    obtain ⟨t, hp, hs⟩ := List.infix_iff_prefix_suffix.mp hinf
    exact ⟨t, (List.mem_tails _ _).mpr hs, List.isPrefixOf_iff_prefix.mpr hp⟩

theorem containsSub_eq_false_iff (n h : PyStr) :
    containsSub n h = false ↔ ¬ n <:+: h := by
  rw [← containsSub_eq_true_iff]
  cases containsSub n h <;> simp

/-- A prefix of `a ++ c :: b` avoiding `c` is a prefix of `a`. -/
theorem prefix_split_on_char (n a b : PyStr) (c : Char) (hc : c ∉ n)
    (h : n <+: a ++ c :: b) : n <+: a := by
  induction a generalizing n with
  | nil =>
    cases n with
    | nil => exact List.nil_prefix
    | cons x n' =>
      obtain ⟨t, ht⟩ := h
      simp at ht
      obtain ⟨hx, -⟩ := ht
      subst hx
      exact (hc (List.mem_cons_self x n')).elim
  | cons d a' ih =>
    cases n with
    | nil => exact List.nil_prefix
    | cons x n' =>
      obtain ⟨t, ht⟩ := h
      simp at ht
      obtain ⟨hx, ht'⟩ := ht
      subst hx
      have hn' : n' <+: a' ++ c :: b := ⟨t, ht'⟩
      have := ih n' (fun hm => hc (List.mem_cons_of_mem _ hm)) hn'
      exact List.cons_prefix_cons.mpr ⟨rfl, this⟩

/-- An infix of `a ++ c :: b` avoiding `c` is an infix of `a` or of `b`. -/
theorem infix_split_on_char (n a b : PyStr) (c : Char) (hc : c ∉ n)
    (h : n <:+: a ++ c :: b) : n <:+: a ∨ n <:+: b := by
  induction a with
  | nil =>
    rw [List.nil_append, List.infix_cons_iff] at h
    rcases h with h | h
    · left
      have := prefix_split_on_char n [] b c hc (by simpa using h)
      simpa using List.IsPrefix.isInfix this
    · right
      exact h
  | cons d a' ih =>
    rw [List.cons_append, List.infix_cons_iff] at h
    rcases h with h | h
    · left
      have := prefix_split_on_char n (d :: a') b c hc (by simpa using h)
      exact this.isInfix
    · rcases ih h with h' | h'
      · exact Or.inl (List.infix_cons h')
      · exact Or.inr h'

/-- `pySplitOnce` at an explicit separator occurrence, when no occurrence
can start inside or straddle out of `pre`. -/
theorem pySplitOnce_boundary (sep pre t : PyStr) (hsep : sep ≠ [])
    (hocc : ∀ suf, suf <:+ pre → suf ≠ [] → sep.isPrefixOf (suf ++ sep ++ t) = false) :
    pySplitOnce sep (pre ++ sep ++ t) = some (pre, t) := by
  induction pre with
  | nil =>
    rw [List.nil_append]
    cases hs : sep with
    | nil => exact absurd hs hsep
    | cons c cs =>
      show pySplitOnce (c :: cs) ((c :: cs) ++ t) = some ([], t)
      rw [List.cons_append, pySplitOnce]
      have hpre : (c :: cs).isPrefixOf (c :: (cs ++ t)) = true := by
        rw [← List.cons_append]
        exact List.isPrefixOf_iff_prefix.mpr (List.prefix_append _ _)
      rw [if_pos hpre, ← List.cons_append, List.drop_left]
  | cons x pre' ih =>
    have hx : sep.isPrefixOf ((x :: pre') ++ sep ++ t) = false :=
      hocc (x :: pre') (List.suffix_refl _) (by simp)
    have ih' := ih (fun suf hs hne =>
      hocc suf (hs.trans (List.suffix_cons x pre')) hne)
    show pySplitOnce sep (x :: (pre' ++ sep ++ t)) = some (x :: pre', t)
    simp only [List.cons_append, List.append_assoc] at hx
    rw [pySplitOnce, if_neg (by simp only [List.append_assoc] at ih' ⊢; rw [hx]; simp)]
    simp only [List.append_assoc] at ih' ⊢
    rw [ih']

/-- `joinNl` on a nonempty list of lines. -/
theorem joinNl_cons_of_ne_nil (l : PyStr) (ls : List PyStr) (h : ls ≠ []) :
    joinNl (l :: ls) = l ++ '\n' :: joinNl ls := by
  cases ls with
  | nil => exact absurd rfl h
  | cons l2 rest => rfl

/-- `joinNl` with a last line appended. -/
theorem joinNl_append_singleton (ls : List PyStr) (y : PyStr) (h : ls ≠ []) :
    joinNl (ls ++ [y]) = joinNl ls ++ '\n' :: y := by
  induction ls with
  | nil => exact absurd rfl h
  | cons l rest ih =>
    cases rest with
    | nil => rfl
    | cons l2 rest' =>
      rw [List.cons_append, joinNl_cons_of_ne_nil _ _ (by simp),
        joinNl_cons_of_ne_nil _ _ (by simp), ih (by simp)]
      simp

/-- `splitChar` never returns an empty list of pieces. -/
theorem splitChar_ne_nil (c : Char) (l : PyStr) : splitChar c l ≠ [] := by
  cases l with
  | nil => simp [splitChar]
  | cons x xs =>
    rw [splitChar]
    cases h : splitChar c xs with
    | nil => simp
    | cons a b => by_cases hx : x = c <;> simp [hx]

/-- `splitChar` of a separator-free string. -/
theorem splitChar_of_not_mem (c : Char) (l : PyStr) (h : c ∉ l) :
    splitChar c l = [l] := by
  induction l with
  | nil => rfl
  | cons x xs ih =>
    have hx : x ≠ c := fun he => h (he ▸ List.mem_cons_self x xs)
    have hxs : c ∉ xs := fun hm => h (List.mem_cons_of_mem x hm)
    rw [splitChar, ih hxs]
    simp [hx]

/-- `splitChar` past a leading separator-free chunk. -/
theorem splitChar_append_cons (c : Char) (l r : PyStr) (h : c ∉ l) :
    splitChar c (l ++ c :: r) = l :: splitChar c r := by
  induction l with
  | nil =>
    show splitChar c (c :: r) = [] :: splitChar c r
    rw [splitChar]
    cases hs : splitChar c r with
    | nil => exact absurd hs (splitChar_ne_nil c r)
    | cons a b => simp
  | cons x xs ih =>
    have hx : x ≠ c := fun he => h (he ▸ List.mem_cons_self x xs)
    have hxs : c ∉ xs := fun hm => h (List.mem_cons_of_mem x hm)
    show splitChar c (x :: (xs ++ c :: r)) = (x :: xs) :: splitChar c r
    rw [splitChar, ih hxs]
    simp [hx]

/-- `joinNl` then `splitChar '\n'` recovers newline-free lines. -/
theorem splitChar_joinNl (ls : List PyStr) (hne : ls ≠ [])
    (h : ∀ l ∈ ls, '\n' ∉ l) :
    splitChar '\n' (joinNl ls) = ls := by
  induction ls with
  | nil => exact absurd rfl hne
  | cons l rest ih =>
    cases rest with
    | nil =>
      show splitChar '\n' (joinNl [l]) = [l]
      exact splitChar_of_not_mem _ _ (h l (by simp))
    | cons l2 rest' =>
      rw [joinNl_cons_of_ne_nil _ _ (by simp),
        splitChar_append_cons _ _ _ (h l (by simp)),
        ih (by simp) (fun x hx => h x (List.mem_cons_of_mem l hx))]

/-- `splitFirstChar` at an explicit first occurrence. -/
theorem splitFirstChar_boundary (c : Char) (a b : PyStr) (h : c ∉ a) :
    splitFirstChar c (a ++ c :: b) = (a, b) := by
  induction a with
  | nil => simp [splitFirstChar]
  | cons x xs ih =>
    have hx : x ≠ c := fun he => h (he ▸ List.mem_cons_self x xs)
    have hxs : c ∉ xs := fun hm => h (List.mem_cons_of_mem x hm)
    show splitFirstChar c (x :: (xs ++ c :: b)) = (x :: xs, b)
    rw [splitFirstChar, ih hxs]
    simp [hx]

/-- `splitFirstBy` of a string with no character satisfying `p`. -/
theorem splitFirstBy_of_none (p : Char → Bool) (l : PyStr)
    (h : ∀ c ∈ l, p c = false) : splitFirstBy p l = (l, none) := by
  induction l with
  | nil => rfl
  | cons x xs ih =>
    rw [splitFirstBy, ih (fun c hc => h c (List.mem_cons_of_mem x hc))]
    simp [h x (by simp)]

/-- `splitFirstBy` at an explicit first satisfying character. -/
theorem splitFirstBy_boundary (p : Char → Bool) (a b : PyStr) (c : Char)
    (ha : ∀ x ∈ a, p x = false) (hc : p c = true) :
    splitFirstBy p (a ++ c :: b) = (a, some b) := by
  induction a with
  | nil => simp [splitFirstBy, hc]
  | cons x xs ih =>
    show splitFirstBy p (x :: (xs ++ c :: b)) = (x :: xs, some b)
    rw [splitFirstBy, ih (fun y hy => ha y (List.mem_cons_of_mem x hy))]
    simp [ha x (by simp)]

/-! ### Digit and number rendering lemmas -/

theorem natDigitsAux_eq_digits (fuel n : Nat) (h : n ≤ fuel) :
    natDigitsAux fuel n = Nat.digits 10 n := by
  induction fuel generalizing n with
  | zero =>
    have hn : n = 0 := by omega
    subst hn
    exact (Nat.digits_zero 10).symm
  | succ f ih =>
    cases n with
    | zero => exact (Nat.digits_zero 10).symm
    | succ m =>
      show (m + 1) % 10 :: natDigitsAux f ((m + 1) / 10) = _
      rw [Nat.digits_def' (by norm_num : (1 : ℕ) < 10) (Nat.succ_pos m)]
      refine congrArg _ (ih _ ?_)
      have := Nat.div_lt_self (Nat.succ_pos m) (by norm_num : 1 < 10)
      omega

theorem natDigitsLE_eq_digits (n : Nat) : natDigitsLE n = Nat.digits 10 n :=
  natDigitsAux_eq_digits n n le_rfl

theorem natDigitsLE_lt (n : Nat) : ∀ d ∈ natDigitsLE n, d < 10 := by
  rw [natDigitsLE_eq_digits]
  exact fun d h => Nat.digits_lt_base (by norm_num) h

/-- The decimal digit character of `d < 10`: its coercion value, its
classification against every delimiter character the codec cares about. -/
theorem digitChar_facts (d : Nat) (h : d < 10) :
    digitVal? (Char.ofNat (48 + d)) = some d
    ∧ isPyWs (Char.ofNat (48 + d)) = false
    ∧ Char.ofNat (48 + d) ≠ '-'
    ∧ Char.ofNat (48 + d) ≠ '.'
    ∧ Char.ofNat (48 + d) ≠ 'e'
    ∧ Char.ofNat (48 + d) ≠ 'E'
    ∧ Char.ofNat (48 + d) ≠ '_'
    ∧ Char.ofNat (48 + d) ≠ '\n'
    ∧ Char.ofNat (48 + d) ≠ ':'
    ∧ (Char.ofNat (48 + d)).toLower = Char.ofNat (48 + d)
    ∧ Char.ofNat (48 + d) ≠ 'i'
    ∧ Char.ofNat (48 + d) ≠ 'n' := by
  interval_cases d <;> exact ⟨by decide, by decide, by decide, by decide, by decide,
    by decide, by decide, by decide, by decide, by decide, by decide, by decide⟩

/-- The tail of a digit run after an initial digit parses to its digits. -/
theorem digitRunTail_map (ds : List Nat) (h : ∀ d ∈ ds, d < 10) :
    digitRun?.digitRunTail (ds.map (fun d => Char.ofNat (48 + d))) = some ds := by
  induction ds with
  | nil => rfl
  | cons d tail ih =>
    have hd := digitChar_facts d (h d (by simp))
    cases tail with
    | nil =>
      show digitRun?.digitRunTail [Char.ofNat (48 + d)] = some [d]
      rw [digitRun?.digitRunTail]
      rw [if_neg hd.2.2.2.2.2.2.1]
      simp [hd.1, Option.bind]
    | cons d2 tail' =>
      show digitRun?.digitRunTail
          (Char.ofNat (48 + d) :: Char.ofNat (48 + d2) :: tail'.map (fun d => Char.ofNat (48 + d)))
        = some (d :: d2 :: tail')
      rw [digitRun?.digitRunTail]
      rw [if_neg hd.2.2.2.2.2.2.1]
      have hih := ih (fun x hx => h x (List.mem_cons_of_mem d hx))
      simp only [List.map_cons] at hih
      simp [hd.1, hih, Option.bind]

/-- A mapped digit list parses as a digit run. -/
theorem digitRun_map (ds : List Nat) (h : ∀ d ∈ ds, d < 10) (hne : ds ≠ []) :
    digitRun? (ds.map (fun d => Char.ofNat (48 + d))) = some ds := by
  cases ds with
  | nil => exact absurd rfl hne
  | cons d tail =>
    have hd := digitChar_facts d (h d (by simp))
    show digitRun? (Char.ofNat (48 + d) :: tail.map (fun d => Char.ofNat (48 + d))) = some (d :: tail)
    rw [digitRun?]
    have ht := digitRunTail_map tail (fun x hx => h x (List.mem_cons_of_mem d hx))
    simp [hd.1, ht, Option.bind]

/-- Folding decimal digits from an arbitrary accumulator. -/
theorem digitsVal_foldl_shift (L : List Nat) (a : Nat) :
    L.foldl (fun x d => 10 * x + d) a = a * 10 ^ L.length + digitsVal L := by
  induction L generalizing a with
  | nil => simp [digitsVal]
  | cons d tail ih =>
    show tail.foldl _ (10 * a + d) = a * 10 ^ (d :: tail).length + digitsVal (d :: tail)
    rw [ih (10 * a + d)]
    have : digitsVal (d :: tail) = d * 10 ^ tail.length + digitsVal tail := by
      show tail.foldl _ (10 * 0 + d) = _
      rw [ih (10 * 0 + d)]
      ring_nf
    rw [this, List.length_cons, pow_succ]
    ring

theorem digitsVal_cons (d : Nat) (tail : List Nat) :
    digitsVal (d :: tail) = d * 10 ^ tail.length + digitsVal tail := by
  show tail.foldl _ (10 * 0 + d) = _
  rw [digitsVal_foldl_shift]
  ring_nf

theorem digitsVal_lt (L : List Nat) (h : ∀ d ∈ L, d < 10) :
    digitsVal L < 10 ^ L.length := by
  induction L with
  | nil => simp [digitsVal]
  | cons d tail ih =>
    rw [digitsVal_cons]
    have hd : d < 10 := h d (by simp)
    have ht := ih (fun x hx => h x (List.mem_cons_of_mem d hx))
    have h1 : d * 10 ^ tail.length ≤ 9 * 10 ^ tail.length :=
      Nat.mul_le_mul_right _ (by omega)
    calc d * 10 ^ tail.length + digitsVal tail
        < d * 10 ^ tail.length + 10 ^ tail.length := by omega
      _ ≤ 9 * 10 ^ tail.length + 10 ^ tail.length := by omega
      _ = 10 ^ (d :: tail).length := by
          simp [List.length_cons]
          ring
    
/-- Reading big-endian digits recovers `Nat.ofDigits` of the little-endian
list. -/
theorem digitsVal_reverse_ofDigits (L : List Nat) :
    digitsVal L.reverse = Nat.ofDigits 10 L := by
  induction L with
  | nil => simp [digitsVal, Nat.ofDigits]
  | cons d tail ih =>
    rw [List.reverse_cons]
    show (tail.reverse ++ [d]).foldl (fun x e => 10 * x + e) 0 = _
    rw [List.foldl_append]
    show 10 * (tail.reverse.foldl (fun x e => 10 * x + e) 0) + d = _
    rw [show tail.reverse.foldl (fun x e => 10 * x + e) 0 = digitsVal tail.reverse from rfl,
      ih, Nat.ofDigits_cons]
    omega

/-- `digitsVal` of the rendered digits of `n` is `n`. -/
theorem digitsVal_natDigits (n : Nat) :
    digitsVal (natDigitsLE n).reverse = n := by
  rw [natDigitsLE_eq_digits, digitsVal_reverse_ofDigits, Nat.ofDigits_digits]

/-- The big-endian digit values rendered by `natToDigitChars`. -/
def bigDigits (n : Nat) : List Nat :=
  if n = 0 then [0] else (natDigitsLE n).reverse

theorem natToDigitChars_eq_map (n : Nat) :
    natToDigitChars n = (bigDigits n).map (fun d => Char.ofNat (48 + d)) := by
  unfold natToDigitChars bigDigits
  by_cases h : n = 0 <;> simp [h]

theorem bigDigits_lt (n : Nat) : ∀ d ∈ bigDigits n, d < 10 := by
  unfold bigDigits
  by_cases h : n = 0
  · simp [h]
  · intro d hd
    rw [if_neg h, List.mem_reverse] at hd
    exact natDigitsLE_lt n d hd

theorem bigDigits_ne_nil (n : Nat) : bigDigits n ≠ [] := by
  unfold bigDigits
  by_cases h : n = 0
  · simp [h]
  · rw [if_neg h]
    simp only [ne_eq, List.reverse_eq_nil_iff]
    rw [natDigitsLE_eq_digits]
    simp [Nat.digits_eq_nil_iff_eq_zero, h]

theorem digitsVal_bigDigits (n : Nat) : digitsVal (bigDigits n) = n := by
  unfold bigDigits
  by_cases h : n = 0
  · simp [h, digitsVal]
  · rw [if_neg h]
    exact digitsVal_natDigits n

theorem digitChar_facts2 (d : Nat) (h : d < 10) :
    Char.ofNat (48 + d) ≠ '+' := by
  interval_cases d <;> decide

/-- Plus one digit: the length of the digits of `10 ^ k + fp`. -/
theorem bigDigits_pow_add (k fp : Nat) (h : fp < 10 ^ k) :
    ∃ tail, bigDigits (10 ^ k + fp) = 1 :: tail
      ∧ digitsVal tail = fp ∧ tail.length = k := by
  have hne : 10 ^ k + fp ≠ 0 := by positivity
  have hlen : (bigDigits (10 ^ k + fp)).length = k + 1 := by
    unfold bigDigits
    rw [if_neg hne, List.length_reverse, natDigitsLE_eq_digits,
      Nat.digits_len 10 _ (by norm_num) hne,
      Nat.log_eq_of_pow_le_of_lt_pow (Nat.le_add_right _ _) (by rw [pow_succ]; omega)]
  obtain ⟨hd0, tail, hcons⟩ : ∃ hd0 tail, bigDigits (10 ^ k + fp) = hd0 :: tail := by
    cases hb : bigDigits (10 ^ k + fp) with
    | nil => exact absurd hb (bigDigits_ne_nil _)
    | cons a b => exact ⟨a, b, rfl⟩
  have htlen : tail.length = k := by
    rw [hcons] at hlen
    simpa using hlen
  have hval : digitsVal (hd0 :: tail) = 10 ^ k + fp := by
    rw [← hcons]
    exact digitsVal_bigDigits _
  rw [digitsVal_cons, htlen] at hval
  have htv : digitsVal tail < 10 ^ k := by
    have := digitsVal_lt tail (fun d hd =>
      bigDigits_lt _ d (by rw [hcons]; exact List.mem_cons_of_mem _ hd))
    rwa [htlen] at this
  have hd1 : hd0 = 1 := by
    rcases Nat.lt_or_ge hd0 1 with h0 | h1
    · interval_cases hd0
      omega
    · rcases Nat.lt_or_ge hd0 2 with h2 | h2
      · omega
      · exfalso
        have : 2 * 10 ^ k ≤ hd0 * 10 ^ k := Nat.mul_le_mul_right _ h2
        omega
  subst hd1
  exact ⟨tail, hcons, by omega, htlen⟩

theorem natToDigitChars_chars (m : Nat) :
    ∀ c ∈ natToDigitChars m, ∃ d, d < 10 ∧ c = Char.ofNat (48 + d) := by
  rw [natToDigitChars_eq_map]
  intro c hc
  obtain ⟨d, hd, rfl⟩ := List.mem_map.mp hc
  exact ⟨d, bigDigits_lt m d hd, rfl⟩

theorem natToDigitChars_ne_nil (m : Nat) : natToDigitChars m ≠ [] := by
  rw [natToDigitChars_eq_map]
  simpa using bigDigits_ne_nil m

/-- `parsePyDecimal` on a pure digit string reads the number back. -/
theorem parsePyDecimal_digits (m : Nat) :
    parsePyDecimal (natToDigitChars m) = some (m : ℚ) := by
  have hsplitE : splitFirstBy (fun c => c = 'e' || c = 'E') (natToDigitChars m)
      = (natToDigitChars m, none) := by
    refine splitFirstBy_of_none _ _ (fun c hc => ?_)
    obtain ⟨d, hd, rfl⟩ := natToDigitChars_chars m c hc
    have f := digitChar_facts d hd
    simp [f.2.2.2.2.1, f.2.2.2.2.2.1]
  have hsplitDot : splitFirstBy (fun c => c = '.') (natToDigitChars m)
      = (natToDigitChars m, none) := by
    refine splitFirstBy_of_none _ _ (fun c hc => ?_)
    obtain ⟨d, hd, rfl⟩ := natToDigitChars_chars m c hc
    have f := digitChar_facts d hd
    simp [f.2.2.2.1]
  have hrun : digitRun? (natToDigitChars m) = some (bigDigits m) := by
    rw [natToDigitChars_eq_map]
    exact digitRun_map _ (bigDigits_lt m) (bigDigits_ne_nil m)
  unfold parsePyDecimal
  simp only [hsplitE, hsplitDot, hrun, natToDigitChars_ne_nil m, if_neg]
  norm_num [digitsVal_bigDigits, show digitsVal ([] : List Nat) = 0 from rfl]

theorem splitSign_not_sign (s : PyStr)
    (h : ∀ c, s.head? = some c → c ≠ '+' ∧ c ≠ '-') :
    splitSign s = (false, s) := by
  unfold splitSign
  split
  · rename_i r
    exact absurd rfl (h '+' (by simp)).1
  · rename_i r
    exact absurd rfl (h '-' (by simp)).2
  · rfl

theorem splitSign_natToDigitChars (m : Nat) :
    splitSign (natToDigitChars m) = (false, natToDigitChars m) := by
  refine splitSign_not_sign _ (fun c hc => ?_)
  obtain ⟨d, hd, rfl⟩ := natToDigitChars_chars m c
    (List.mem_of_mem_head? (Option.mem_def.mpr hc))
  exact ⟨digitChar_facts2 d hd, (digitChar_facts d hd).2.2.1⟩

/-- The lowercase of a digit-leading string is not `inf`, `infinity` or
`nan`. -/
theorem toLowerStr_natToDigitChars_ne (m : Nat) :
    toLowerStr (natToDigitChars m) ≠ ('i' :: 'n' :: 'f' :: [])
    ∧ toLowerStr (natToDigitChars m)
        ≠ ('i' :: 'n' :: 'f' :: 'i' :: 'n' :: 'i' :: 't' :: 'y' :: [])
    ∧ toLowerStr (natToDigitChars m) ≠ ('n' :: 'a' :: 'n' :: []) := by
  cases hm : natToDigitChars m with
  | nil => exact absurd hm (natToDigitChars_ne_nil m)
  | cons c r =>
    obtain ⟨d, hd, rfl⟩ := natToDigitChars_chars m c (by rw [hm]; simp)
    have hfacts := digitChar_facts d hd
    have hlow : toLowerStr (Char.ofNat (48 + d) :: r)
        = Char.ofNat (48 + d) :: toLowerStr r := by
      show (Char.ofNat (48 + d)).toLower :: r.map Char.toLower = _
      rw [hfacts.2.2.2.2.2.2.2.2.2.1]
      rfl
    rw [hlow]
    refine ⟨?_, ?_, ?_⟩ <;> intro he <;> injection he with h1 h2
    · exact hfacts.2.2.2.2.2.2.2.2.2.2.1 h1
    · exact hfacts.2.2.2.2.2.2.2.2.2.2.1 h1
    · exact hfacts.2.2.2.2.2.2.2.2.2.2.2 h1

/-- `pyFloatParse` on the rendered integer reads the integer back. -/
theorem pyFloatParse_intToChars (n : Int) :
    pyFloatParse (intToChars n) = .finite (n : ℚ) := by
  have hstrip : pyStrip (intToChars n) = intToChars n := by
    refine pyStrip_eq_self_of_all _ (fun c hc => ?_)
    unfold intToChars at hc
    rcases List.mem_append.mp hc with hc | hc
    · split_ifs at hc with hn
      · simp at hc
        rw [hc]
        decide
      · simp at hc
    · obtain ⟨d, hd, rfl⟩ := natToDigitChars_chars _ c hc
      exact (digitChar_facts d hd).2.1
  have hne := toLowerStr_natToDigitChars_ne n.natAbs
  unfold pyFloatParse
  rw [hstrip]
  by_cases hn : n < 0
  · have hform : intToChars n = '-' :: natToDigitChars n.natAbs := by
      unfold intToChars
      rw [if_pos hn]
      rfl
    rw [hform]
    simp only [show splitSign ('-' :: natToDigitChars n.natAbs)
      = (true, natToDigitChars n.natAbs) from rfl]
    rw [if_neg (by simp [hne.1, hne.2.1]), if_neg hne.2.2,
      parsePyDecimal_digits n.natAbs]
    simp only [if_pos]
    refine congrArg FloatParseRes.finite ?_
    rw [Int.cast_natAbs]
    rw [abs_of_neg (by exact_mod_cast hn)]
    push_cast
    ring
  · have hform : intToChars n = natToDigitChars n.natAbs := by
      unfold intToChars
      rw [if_neg hn]
      rfl
    rw [hform]
    simp only [splitSign_natToDigitChars]
    rw [if_neg (by simp [hne.1, hne.2.1]), if_neg hne.2.2,
      parsePyDecimal_digits n.natAbs]
    simp only [Bool.false_eq_true, if_false]
    refine congrArg FloatParseRes.finite ?_
    rw [Int.cast_natAbs, abs_of_nonneg (by exact_mod_cast (not_lt.mp hn))]

/-- What `decExp? q.den = some k` guarantees. -/
theorem decExp?_spec (den k : Nat) (h : decExp? den = some k) :
    den ∣ 10 ^ k ∧ 1 ≤ k := by
  unfold decExp? at h
  cases hf : (List.range 64).find? (fun j => decide (den ∣ 10 ^ (j + 1))) with
  | none => rw [hf] at h; exact Option.noConfusion h
  | some j =>
    rw [hf, Option.map_some'] at h
    have hj := List.find?_some hf
    simp only [decide_eq_true_eq] at hj
    have hk := Option.some.inj h
    subst hk
    exact ⟨hj, by omega⟩

/-- The lowercase of a string with a digit first character is not `inf`,
`infinity` or `nan`. -/
theorem toLowerStr_digitHead_ne (st : PyStr) (d : Nat) (hd : d < 10)
    (hh : st.head? = some (Char.ofNat (48 + d))) :
    toLowerStr st ≠ ('i' :: 'n' :: 'f' :: [])
    ∧ toLowerStr st ≠ ('i' :: 'n' :: 'f' :: 'i' :: 'n' :: 'i' :: 't' :: 'y' :: [])
    ∧ toLowerStr st ≠ ('n' :: 'a' :: 'n' :: []) := by
  cases st with
  | nil => exact Option.noConfusion hh
  | cons c r =>
    have hc : c = Char.ofNat (48 + d) := by simpa using hh
    subst hc
    have hfacts := digitChar_facts d hd
    have hlow : toLowerStr (Char.ofNat (48 + d) :: r)
        = Char.ofNat (48 + d) :: toLowerStr r := by
      show (Char.ofNat (48 + d)).toLower :: r.map Char.toLower = _
      rw [hfacts.2.2.2.2.2.2.2.2.2.1]
      rfl
    rw [hlow]
    refine ⟨?_, ?_, ?_⟩ <;> intro he <;> injection he with h1 h2
    · exact hfacts.2.2.2.2.2.2.2.2.2.2.1 h1
    · exact hfacts.2.2.2.2.2.2.2.2.2.2.1 h1
    · exact hfacts.2.2.2.2.2.2.2.2.2.2.2 h1

/-- `parsePyDecimal` on a rendered mantissa `ip.frac` with `k` fraction
digits encoding `fp < 10 ^ k`. -/
theorem parsePyDecimal_renderMantissa (ip fp k : Nat) (hk : 1 ≤ k) (hfp : fp < 10 ^ k) :
    parsePyDecimal (natToDigitChars ip ++ '.' :: (natToDigitChars (10 ^ k + fp)).drop 1)
      = some ((ip : ℚ) + (fp : ℚ) / 10 ^ k) := by
  obtain ⟨tail, hcons, hval, hlen⟩ := bigDigits_pow_add k fp hfp
  obtain ⟨t0, ts, rfl⟩ : ∃ t0 ts, tail = t0 :: ts := by
    cases tail with
    | nil =>
      exfalso
      rw [List.length_nil] at hlen
      omega
    | cons a b => exact ⟨a, b, rfl⟩
  have hdropchars : (natToDigitChars (10 ^ k + fp)).drop 1
      = Char.ofNat (48 + t0) :: ts.map (fun d => Char.ofNat (48 + d)) := by
    rw [natToDigitChars_eq_map, hcons]
    rfl
  have htail10 : ∀ d ∈ t0 :: ts, d < 10 := fun d hdm =>
    bigDigits_lt _ d (by rw [hcons]; exact List.mem_cons_of_mem _ hdm)
  rw [hdropchars]
  have hipchars := natToDigitChars_chars ip
  have htailchars : ∀ c ∈ Char.ofNat (48 + t0) :: ts.map (fun d => Char.ofNat (48 + d)),
      ∃ d, d < 10 ∧ c = Char.ofNat (48 + d) := by
    intro c hc
    rcases List.mem_cons.mp hc with hc | hc
    · exact ⟨t0, htail10 t0 (by simp), hc⟩
    · obtain ⟨d, hd, rfl⟩ := List.mem_map.mp hc
      exact ⟨d, htail10 d (List.mem_cons_of_mem _ hd), rfl⟩
  have hsplitE : splitFirstBy (fun c => c = 'e' || c = 'E')
      (natToDigitChars ip ++ '.' :: Char.ofNat (48 + t0) :: ts.map (fun d => Char.ofNat (48 + d)))
      = (natToDigitChars ip ++ '.' :: Char.ofNat (48 + t0) :: ts.map (fun d => Char.ofNat (48 + d)), none) := by
    refine splitFirstBy_of_none _ _ (fun c hc => ?_)
    rcases List.mem_append.mp hc with hc | hc
    · obtain ⟨d, hd, rfl⟩ := hipchars c hc
      have f := digitChar_facts d hd
      simp [f.2.2.2.2.1, f.2.2.2.2.2.1]
    · rcases List.mem_cons.mp hc with hc | hc
      · rw [hc]; decide
      · obtain ⟨d, hd, rfl⟩ := htailchars c hc
        have f := digitChar_facts d hd
        simp [f.2.2.2.2.1, f.2.2.2.2.2.1]
  have hsplitDot : splitFirstBy (fun c => c = '.')
      (natToDigitChars ip ++ '.' :: Char.ofNat (48 + t0) :: ts.map (fun d => Char.ofNat (48 + d)))
      = (natToDigitChars ip, some (Char.ofNat (48 + t0) :: ts.map (fun d => Char.ofNat (48 + d)))) := by
    refine splitFirstBy_boundary _ _ _ _ (fun x hx => ?_) (by decide)
    obtain ⟨d, hd, rfl⟩ := hipchars x hx
    have f := digitChar_facts d hd
    simp [f.2.2.2.1]
  have hrunIp : digitRun? (natToDigitChars ip) = some (bigDigits ip) := by
    rw [natToDigitChars_eq_map]
    exact digitRun_map _ (bigDigits_lt ip) (bigDigits_ne_nil ip)
  have hrunTail : digitRun? (Char.ofNat (48 + t0) :: ts.map (fun d => Char.ofNat (48 + d)))
      = some (t0 :: ts) := by
    have := digitRun_map (t0 :: ts) htail10 (by simp)
    simpa using this
  unfold parsePyDecimal
  simp only [hsplitE, hsplitDot, hrunIp, hrunTail]
  rw [if_neg (natToDigitChars_ne_nil ip)]
  simp only []
  rw [if_neg (fun hand => absurd
    (And.left (hand : natToDigitChars ip = [] ∧ _)) (natToDigitChars_ne_nil ip))]
  simp only [digitsVal_bigDigits, hval, hlen]
  norm_num

/-- `|q|` as a quotient of the numerator magnitude by the denominator. -/
theorem abs_rat_eq (q : ℚ) : |q| = (q.num.natAbs : ℚ) / (q.den : ℚ) := by
  rcases le_or_lt 0 q with h | h
  · rw [abs_of_nonneg h]
    rw [show (q.num.natAbs : ℚ) = (q.num : ℚ) from by
      have hz : (q.num.natAbs : ℤ) = q.num := Int.natAbs_of_nonneg (Rat.num_nonneg.mpr h)
      calc (q.num.natAbs : ℚ) = ((q.num.natAbs : ℤ) : ℚ) := (Int.cast_natCast _).symm
        _ = (q.num : ℚ) := by rw [hz]]
    exact (Rat.num_div_den q).symm
  · rw [abs_of_neg h]
    rw [show (q.num.natAbs : ℚ) = -(q.num : ℚ) from by
      have hz : (q.num.natAbs : ℤ) = -q.num :=
        Int.ofNat_natAbs_of_nonpos (le_of_lt (Rat.num_neg.mpr h))
      calc (q.num.natAbs : ℚ) = ((q.num.natAbs : ℤ) : ℚ) := (Int.cast_natCast _).symm
        _ = ((-q.num : ℤ) : ℚ) := by rw [hz]
        _ = -(q.num : ℚ) := Int.cast_neg _]
    rw [neg_div]
    exact congrArg Neg.neg (Rat.num_div_den q).symm

/-- `pyFloatParse` reads back a rendered float with an exact short decimal
expansion. -/
theorem pyFloatParse_renderFloat (q : ℚ) (k : Nat) (hk : decExp? q.den = some k) :
    pyFloatParse (renderFloat q) = .finite q := by
  obtain ⟨hdvd, hk1⟩ := decExp?_spec _ _ hk
  have hden0 : (q.den : ℚ) ≠ 0 := by exact_mod_cast q.den_nz
  have hdvd2 : q.den ∣ q.num.natAbs * 10 ^ k := Dvd.dvd.mul_left hdvd _
  have htotQ : ((q.num.natAbs * 10 ^ k / q.den : ℕ) : ℚ) = |q| * 10 ^ k := by
    rw [Nat.cast_div hdvd2 hden0, abs_rat_eq]
    push_cast
    ring
  set total := q.num.natAbs * 10 ^ k / q.den with htotal
  have hfp : total % 10 ^ k < 10 ^ k := Nat.mod_lt _ (by positivity)
  set B := natToDigitChars (total / 10 ^ k)
      ++ '.' :: (natToDigitChars (10 ^ k + total % 10 ^ k)).drop 1 with hB
  have hform : renderFloat q = (if q.num < 0 then ['-'] else []) ++ B := by
    rw [hB]
    unfold renderFloat
    rw [hk]
    simp only []
    rw [← htotal, List.append_assoc]
  have hmant : parsePyDecimal B
      = some (((total / 10 ^ k : ℕ) : ℚ) + ((total % 10 ^ k : ℕ) : ℚ) / 10 ^ k) := by
    rw [hB]
    exact parsePyDecimal_renderMantissa (total / 10 ^ k) (total % 10 ^ k) k hk1 hfp
  have hvalQ : ((total / 10 ^ k : ℕ) : ℚ) + ((total % 10 ^ k : ℕ) : ℚ) / 10 ^ k = |q| := by
    have hdm : total / 10 ^ k * 10 ^ k + total % 10 ^ k = total := by
      rw [Nat.mul_comm]
      exact Nat.div_add_mod total (10 ^ k)
    have hcast : ((total / 10 ^ k : ℕ) : ℚ) * 10 ^ k + ((total % 10 ^ k : ℕ) : ℚ)
        = (total : ℚ) := by
      exact_mod_cast congrArg (fun n : ℕ => (n : ℚ)) hdm
    have hpow : ((10 : ℚ) ^ k) ≠ 0 := by positivity
    have habs : |q| = (total : ℚ) / 10 ^ k := by
      rw [htotQ]
      field_simp
    rw [habs, ← hcast]
    field_simp
  have hmantchars : ∀ c ∈ B, isPyWs c = false ∧ c ≠ '+' ∧ c ≠ '-' := by
    intro c hc
    rw [hB] at hc
    rcases List.mem_append.mp hc with hc | hc
    · obtain ⟨d, hd, rfl⟩ := natToDigitChars_chars _ c hc
      exact ⟨(digitChar_facts d hd).2.1, digitChar_facts2 d hd,
        (digitChar_facts d hd).2.2.1⟩
    · rcases List.mem_cons.mp hc with hc | hc
      · rw [hc]
        exact ⟨by decide, by decide, by decide⟩
      · obtain ⟨d, hd, rfl⟩ := natToDigitChars_chars _ c (List.mem_of_mem_drop hc)
        exact ⟨(digitChar_facts d hd).2.1, digitChar_facts2 d hd,
          (digitChar_facts d hd).2.2.1⟩
  have hmanthead : ∃ d, d < 10 ∧ B.head? = some (Char.ofNat (48 + d)) := by
    rw [hB]
    cases hn : natToDigitChars (total / 10 ^ k) with
    | nil => exact absurd hn (natToDigitChars_ne_nil _)
    | cons c r =>
      obtain ⟨d, hd, rfl⟩ := natToDigitChars_chars _ c (by rw [hn]; simp)
      exact ⟨d, hd, rfl⟩
  obtain ⟨dh, hdh, hheadeq⟩ := hmanthead
  have hne := toLowerStr_digitHead_ne _ dh hdh hheadeq
  have hstripB : pyStrip B = B :=
    pyStrip_eq_self_of_all _ (fun c hc => (hmantchars c hc).1)
  by_cases hneg : q.num < 0
  · have hformneg : renderFloat q = '-' :: B := by
      rw [hform, if_pos hneg]
      rfl
    rw [hformneg]
    unfold pyFloatParse
    have hstripneg : pyStrip ('-' :: B) = '-' :: B := by
      refine pyStrip_eq_self_of_all _ (fun c hc => ?_)
      rcases List.mem_cons.mp hc with hc | hc
      · rw [hc]; decide
      · exact (hmantchars c hc).1
    rw [hstripneg]
    simp only [show splitSign ('-' :: B) = (true, B) from rfl]
    rw [if_neg (by simp [hne.1, hne.2.1]), if_neg hne.2.2, hmant]
    simp only [if_pos]
    refine congrArg FloatParseRes.finite ?_
    rw [hvalQ, abs_of_neg (Rat.num_neg.mp hneg)]
    ring
  · have hformpos : renderFloat q = B := by
      rw [hform, if_neg hneg]
      rfl
    rw [hformpos]
    unfold pyFloatParse
    rw [hstripB]
    have hss := splitSign_not_sign B (fun c hc => by
      have := hmantchars c (List.mem_of_mem_head? (Option.mem_def.mpr hc))
      exact ⟨this.2.1, this.2.2⟩)
    simp only [hss]
    rw [if_neg (by simp [hne.1, hne.2.1]), if_neg hne.2.2, hmant]
    simp only [Bool.false_eq_true, if_false]
    refine congrArg FloatParseRes.finite ?_
    rw [hvalQ, abs_of_nonneg (Rat.num_nonneg.mp (not_lt.mp hneg))]

/-! ### Codec round-trip well-formedness -/

/-- Well-formedness of a metadata key for exact round-tripping: trimmed,
with no newline, no colon, and no three-hyphen run. -/
def keyWF (k : PyStr) : Prop :=
  pyStrip k = k ∧ '\n' ∉ k ∧ ':' ∉ k ∧ containsSub dashes k = false

/-- Well-formedness of a metadata value for exact round-tripping: floats
need an exact short decimal expansion; strings must be nonempty, trimmed,
single-line, free of three-hyphen runs, and not themselves coercible to a
number or boolean. -/
def valueWF : Value → Prop
  | .int _ => True
  | .float q => (decExp? q.den).isSome = true
  | .bool _ => True
  | .str s => s ≠ [] ∧ pyStrip s = s ∧ '\n' ∉ s ∧ containsSub dashes s = false
      ∧ coerceValue s = .ok (.str s)

/-- Well-formedness of a whole metadata mapping: unique keys, each entry
well-formed. -/
def recordWF (md : List (PyStr × Value)) : Prop :=
  (md.map Prod.fst).Nodup ∧ ∀ e ∈ md, keyWF e.1 ∧ valueWF e.2

instance (k : PyStr) : Decidable (keyWF k) := by
  unfold keyWF
  infer_instance

instance (v : Value) : Decidable (valueWF v) := by
  cases v <;> unfold valueWF <;> infer_instance

instance (md : List (PyStr × Value)) : Decidable (recordWF md) := by
  unfold recordWF
  infer_instance

/-- Strings without a hyphen contain no three-hyphen run. -/
theorem containsSub_dashes_of_no_dash (s : PyStr) (h : '-' ∉ s) :
    containsSub dashes s = false := by
  rw [containsSub_eq_false_iff]
  intro hinf
  exact h (hinf.subset (by decide))

/-- A single leading hyphen before a hyphen-free string is not a
three-hyphen run either. -/
theorem containsSub_dashes_cons_dash (s : PyStr) (h : '-' ∉ s) :
    containsSub dashes ('-' :: s) = false := by
  rw [containsSub_eq_false_iff]
  intro hinf
  rcases List.infix_cons_iff.mp hinf with hp | hi
  · obtain ⟨t, ht⟩ := hp
    injection ht with h1 h2
    have : '-' ∈ s := by
      have hpre : ('-' :: '-' :: []) <+: s := ⟨t, by simpa using h2⟩
      exact hpre.subset (by decide)
    exact h this
  · exact h (hi.subset (by decide))

/-- Every character of a rendered integer is a hyphen or a digit. -/
theorem intToChars_chars (n : Int) :
    ∀ c ∈ intToChars n, c = '-' ∨ ∃ d, d < 10 ∧ c = Char.ofNat (48 + d) := by
  intro c hc
  unfold intToChars at hc
  rcases List.mem_append.mp hc with hc | hc
  · split_ifs at hc with hn
    · simp at hc
      exact Or.inl hc
    · simp at hc
  · exact Or.inr (natToDigitChars_chars _ c hc)

/-- No hyphen occurs among rendered digits. -/
theorem no_dash_natToDigitChars (m : Nat) : '-' ∉ natToDigitChars m := by
  intro hm
  obtain ⟨d, hd, he⟩ := natToDigitChars_chars m '-' hm
  exact (digitChar_facts d hd).2.2.1 he.symm

/-- Character-level facts about a rendered value: nonempty, trimmed,
newline-free and three-hyphen-free. -/
theorem renderValue_wf (v : Value) (hv : valueWF v) :
    renderValue v ≠ []
    ∧ pyStrip (renderValue v) = renderValue v
    ∧ '\n' ∉ renderValue v
    ∧ containsSub dashes (renderValue v) = false := by
  cases v with
  | int n =>
    refine ⟨?_, ?_, ?_, ?_⟩
    · show intToChars n ≠ []
      unfold intToChars
      intro he
      rcases List.append_eq_nil.mp he with ⟨-, h2⟩
      exact natToDigitChars_ne_nil _ h2
    · refine pyStrip_eq_self_of_all _ (fun c hc => ?_)
      rcases intToChars_chars n c hc with rfl | ⟨d, hd, rfl⟩
      · decide
      · exact (digitChar_facts d hd).2.1
    · intro hm
      rcases intToChars_chars n '\n' hm with he | ⟨d, hd, he⟩
      · exact absurd he (by decide)
      · exact (digitChar_facts d hd).2.2.2.2.2.2.2.1 he.symm
    · show containsSub dashes (intToChars n) = false
      unfold intToChars
      split_ifs with hn
      · show containsSub dashes ('-' :: natToDigitChars n.natAbs) = false
        exact containsSub_dashes_cons_dash _ (no_dash_natToDigitChars _)
      · show containsSub dashes ([] ++ natToDigitChars n.natAbs) = false
        rw [List.nil_append]
        exact containsSub_dashes_of_no_dash _ (no_dash_natToDigitChars _)
  | float q =>
    obtain ⟨k, hk⟩ := Option.isSome_iff_exists.mp hv
    have hform : renderFloat q
        = (if q.num < 0 then ['-'] else [])
          ++ (natToDigitChars (q.num.natAbs * 10 ^ k / q.den / 10 ^ k)
            ++ '.' :: (natToDigitChars (10 ^ k + q.num.natAbs * 10 ^ k / q.den % 10 ^ k)).drop 1) := by
      unfold renderFloat
      rw [hk]
      simp only []
      rw [List.append_assoc]
    have hinner : ∀ c ∈ natToDigitChars (q.num.natAbs * 10 ^ k / q.den / 10 ^ k)
        ++ '.' :: (natToDigitChars (10 ^ k + q.num.natAbs * 10 ^ k / q.den % 10 ^ k)).drop 1,
        c = '.' ∨ ∃ d, d < 10 ∧ c = Char.ofNat (48 + d) := by
      intro c hc
      rcases List.mem_append.mp hc with hc | hc
      · exact Or.inr (natToDigitChars_chars _ c hc)
      · rcases List.mem_cons.mp hc with hc | hc
        · exact Or.inl hc
        · exact Or.inr (natToDigitChars_chars _ c (List.mem_of_mem_drop hc))
    have hnodash : '-' ∉ natToDigitChars (q.num.natAbs * 10 ^ k / q.den / 10 ^ k)
        ++ '.' :: (natToDigitChars (10 ^ k + q.num.natAbs * 10 ^ k / q.den % 10 ^ k)).drop 1 := by
      intro hm
      rcases hinner '-' hm with he | ⟨d, hd, he⟩
      · exact absurd he (by decide)
      · exact (digitChar_facts d hd).2.2.1 he.symm
    have hchars : ∀ c ∈ renderFloat q,
        c = '-' ∨ c = '.' ∨ ∃ d, d < 10 ∧ c = Char.ofNat (48 + d) := by
      intro c hc
      rw [hform] at hc
      rcases List.mem_append.mp hc with hc | hc
      · left
        split_ifs at hc
        · simpa using hc
        · simp at hc
      · rcases hinner c hc with hc | hc
        · exact Or.inr (Or.inl hc)
        · exact Or.inr (Or.inr hc)
    refine ⟨?_, ?_, ?_, ?_⟩
    · show renderFloat q ≠ []
      rw [hform]
      intro he
      rcases List.append_eq_nil.mp he with ⟨-, h2⟩
      rcases List.append_eq_nil.mp h2 with ⟨h3, -⟩
      exact natToDigitChars_ne_nil _ h3
    · refine pyStrip_eq_self_of_all _ (fun c hc => ?_)
      rcases hchars c hc with rfl | rfl | ⟨d, hd, rfl⟩
      · decide
      · decide
      · exact (digitChar_facts d hd).2.1
    · intro hm
      rcases hchars '\n' hm with he | he | ⟨d, hd, he⟩
      · exact absurd he (by decide)
      · exact absurd he (by decide)
      · exact (digitChar_facts d hd).2.2.2.2.2.2.2.1 he.symm
    · show containsSub dashes (renderFloat q) = false
      rw [hform]
      split_ifs with hn
      · rw [show (['-'] : PyStr) ++ (natToDigitChars (q.num.natAbs * 10 ^ k / q.den / 10 ^ k)
            ++ '.' :: (natToDigitChars (10 ^ k + q.num.natAbs * 10 ^ k / q.den % 10 ^ k)).drop 1)
          = '-' :: (natToDigitChars (q.num.natAbs * 10 ^ k / q.den / 10 ^ k)
            ++ '.' :: (natToDigitChars (10 ^ k + q.num.natAbs * 10 ^ k / q.den % 10 ^ k)).drop 1)
          from rfl]
        exact containsSub_dashes_cons_dash _ hnodash
      · rw [List.nil_append]
        exact containsSub_dashes_of_no_dash _ hnodash
  | bool b =>
    cases b
    · exact ⟨by decide, by decide, by decide, by decide⟩
    · exact ⟨by decide, by decide, by decide, by decide⟩
  | str sv =>
    obtain ⟨h1, h2, h3, h4, -⟩ := hv
    exact ⟨h1, h2, h3, h4⟩

/-- Coercion reads back a rendered value, normalizing integral floats to
integers. -/
theorem coerceValue_renderValue (v : Value) (hv : valueWF v) :
    coerceValue (renderValue v) = .ok (normalizeValue v) := by
  cases v with
  | int n =>
    show coerceValue (intToChars n) = .ok (normalizeValue (.int n))
    unfold coerceValue
    rw [pyFloatParse_intToChars]
    show Except.ok (if ((n : ℚ)).den = 1 then Value.int ((n : ℚ)).num
      else Value.float (n : ℚ)) = _
    rw [Rat.den_intCast, Rat.num_intCast, if_pos rfl]
    rfl
  | float q =>
    obtain ⟨k, hk⟩ := Option.isSome_iff_exists.mp hv
    show coerceValue (renderFloat q) = .ok (normalizeValue (.float q))
    unfold coerceValue
    rw [pyFloatParse_renderFloat q k hk]
    rfl
  | bool b =>
    cases b
    · decide
    · decide
  | str sv =>
    exact hv.2.2.2.2

/-- Character-level facts about a rebuilt frontmatter line. -/
theorem renderLine_wf (k : PyStr) (v : Value) (hk : keyWF k) (hv : valueWF v) :
    '\n' ∉ renderLine k v
    ∧ containsSub dashes (renderLine k v) = false
    ∧ pyStrip (renderLine k v) = renderLine k v
    ∧ renderLine k v ≠ []
    ∧ (renderLine k v).contains ':' = true := by
  obtain ⟨hvne, hvstrip, hvnl, hvdash⟩ := renderValue_wf v hv
  refine ⟨?_, ?_, ?_, ?_, ?_⟩
  · intro hm
    unfold renderLine at hm
    rcases List.mem_append.mp hm with hm | hm
    · exact hk.2.1 hm
    · rcases List.mem_cons.mp hm with hm | hm
      · exact absurd hm (by decide)
      · rcases List.mem_cons.mp hm with hm | hm
        · exact absurd hm (by decide)
        · exact hvnl hm
  · show containsSub dashes (k ++ ':' :: ' ' :: renderValue v) = false
    rw [containsSub_eq_false_iff]
    intro hinf
    rcases infix_split_on_char dashes k (' ' :: renderValue v) ':' (by decide) hinf
      with hi | hi
    · have hcon := (containsSub_eq_true_iff _ _).mpr hi
      rw [hk.2.2.2] at hcon
      exact Bool.noConfusion hcon
    · rcases infix_split_on_char dashes [] (renderValue v) ' ' (by decide)
        (by simpa using hi) with hi2 | hi2
      · rw [List.infix_nil] at hi2
        exact absurd hi2 (by decide)
      · have hcon := (containsSub_eq_true_iff _ _).mpr hi2
        rw [hvdash] at hcon
        exact Bool.noConfusion hcon
  · refine pyStrip_eq_self_of (renderLine k v) (fun c hc => ?_) (fun c hc => ?_)
    · unfold renderLine at hc
      cases hkc : k with
      | nil =>
        rw [hkc, List.nil_append] at hc
        have h0 : ':' = c := by simpa using hc
        rw [← h0]
        decide
      | cons a rest =>
        rw [hkc] at hc
        have h0 : a = c := by simpa using hc
        rw [← h0]
        exact head_of_pyStrip_eq_self k (hk.1) a (by rw [hkc]; rfl)
    · unfold renderLine at hc
      rw [List.getLast?_append_of_ne_nil _ (by simp)] at hc
      have h2 : (':' :: ' ' :: renderValue v).getLast? = (renderValue v).getLast? := by
        rw [show (':' :: ' ' :: renderValue v) = ([':', ' '] ++ renderValue v) from rfl,
          List.getLast?_append_of_ne_nil _ hvne]
      rw [h2] at hc
      exact getLast_of_pyStrip_eq_self _ hvstrip c hc
  · intro he
    unfold renderLine at he
    rcases List.append_eq_nil.mp he with ⟨-, h2⟩
    exact List.noConfusion h2
  · simp [renderLine]

theorem lookupVal_eq_none_iff {α : Type} (l : List (PyStr × α)) (k : PyStr) :
    lookupVal l k = none ↔ k ∉ l.map Prod.fst := by
  induction l with
  | nil =>
    exact ⟨fun _ => List.not_mem_nil k, fun _ => rfl⟩
  | cons e rest ih =>
    obtain ⟨k0, v0⟩ := e
    show (if k0 = k then some v0 else lookupVal rest k) = none ↔ _
    by_cases h : k0 = k
    · subst h
      rw [if_pos rfl]
      constructor
      · intro h0
        exact Option.noConfusion h0
      · intro h0
        exfalso
        apply h0
        rw [List.map_cons]
        exact List.mem_cons_self _ _
    · rw [if_neg h, ih, List.map_cons]
      constructor
      · intro hr hm
        rcases List.mem_cons.mp hm with hm | hm
        · exact h hm.symm
        · exact hr hm
      · intro hr hm
        exact hr (List.mem_cons_of_mem _ hm)

theorem setVal_append_of_none {α : Type} (l : List (PyStr × α)) (k : PyStr) (v : α)
    (h : lookupVal l k = none) : setVal l k v = l ++ [(k, v)] := by
  induction l with
  | nil => rfl
  | cons e rest ih =>
    obtain ⟨k0, v0⟩ := e
    unfold lookupVal at h
    by_cases h0 : k0 = k
    · rw [if_pos h0] at h
      exact Option.noConfusion h
    · rw [if_neg h0] at h
      show setVal ((k0, v0) :: rest) k v = _
      unfold setVal
      rw [if_neg h0, ih h]
      rfl

theorem lookupVal_append_singleton_ne {α : Type} (l : List (PyStr × α)) (k k' : PyStr)
    (v : α) (h : k' ≠ k) : lookupVal (l ++ [(k, v)]) k' = lookupVal l k' := by
  induction l with
  | nil =>
    show lookupVal [(k, v)] k' = none
    unfold lookupVal
    rw [if_neg (fun he => h he.symm)]
    rfl
  | cons e rest ih =>
    obtain ⟨k0, v0⟩ := e
    show lookupVal ((k0, v0) :: (rest ++ [(k, v)])) k' = lookupVal ((k0, v0) :: rest) k'
    unfold lookupVal
    by_cases h0 : k0 = k' <;> simp [h0, ih]

/-- One rebuilt frontmatter line parses back to a dict update with the
normalized value. -/
theorem parseFMLine_render (acc : List (PyStr × Value)) (k : PyStr) (v : Value)
    (hk : keyWF k) (hv : valueWF v) :
    parseFMLine acc (renderLine k v) = .ok (setVal acc k (normalizeValue v)) := by
  obtain ⟨hnl, hdash, hstrip, hne, hcol⟩ := renderLine_wf k v hk hv
  have hsplit : splitFirstChar ':' (renderLine k v) = (k, ' ' :: renderValue v) := by
    show splitFirstChar ':' (k ++ ':' :: (' ' :: renderValue v)) = _
    exact splitFirstChar_boundary ':' k (' ' :: renderValue v) hk.2.2.1
  have hstripv : pyStrip (' ' :: renderValue v) = renderValue v := by
    rw [pyStrip_cons_ws _ _ (by decide)]
    exact (renderValue_wf v hv).2.1
  unfold parseFMLine
  simp only [hstrip, hcol, hsplit, hstripv, hk.1, coerceValue_renderValue v hv]
  rfl

/-- Folding the rebuilt lines of a well-formed metadata list extends the
accumulator with the normalized entries, in order. -/
theorem parseFMLines_fold (md : List (PyStr × Value)) (acc : List (PyStr × Value))
    (hwf : ∀ e ∈ md, keyWF e.1 ∧ valueWF e.2)
    (hnd : (md.map Prod.fst).Nodup)
    (hdisj : ∀ e ∈ md, lookupVal acc e.1 = none) :
    (md.map (fun e => renderLine e.1 e.2)).foldlM parseFMLine acc
      = .ok (acc ++ md.map (fun e => (e.1, normalizeValue e.2))) := by
  induction md generalizing acc with
  | nil =>
    show pure acc = Except.ok (acc ++ [])
    rw [List.append_nil]
    rfl
  | cons e rest ih =>
    obtain ⟨k, v⟩ := e
    rw [List.map_cons, List.foldlM_cons,
      parseFMLine_render acc k v (hwf (k, v) (List.mem_cons_self (k, v) rest)).1
        (hwf (k, v) (List.mem_cons_self (k, v) rest)).2,
      setVal_append_of_none acc k (normalizeValue v)
        (hdisj (k, v) (List.mem_cons_self (k, v) rest))]
    rw [List.map_cons] at hnd
    have hknotin : k ∉ rest.map Prod.fst := (List.nodup_cons.mp hnd).1
    have hrestnd : (rest.map Prod.fst).Nodup := (List.nodup_cons.mp hnd).2
    show (rest.map (fun e => renderLine e.1 e.2)).foldlM parseFMLine
        (acc ++ [(k, normalizeValue v)]) = _
    rw [ih (acc ++ [(k, normalizeValue v)])
      (fun e he => hwf e (List.mem_cons_of_mem _ he)) hrestnd
      (fun e he => by
        rw [lookupVal_append_singleton_ne _ _ _ _
          (fun heq => hknotin (by rw [← heq]; exact List.mem_map_of_mem Prod.fst he))]
        exact hdisj e (List.mem_cons_of_mem _ he))]
    simp

theorem joinNl_ne_nil_concat (ls : List PyStr) (l : PyStr) (hl : l ≠ []) :
    joinNl (ls ++ [l]) ≠ [] := by
  induction ls with
  | nil => exact hl
  | cons x ls' ih =>
    rw [List.cons_append, joinNl_cons_of_ne_nil _ _ (by simp)]
    intro he
    rcases List.append_eq_nil.mp he with ⟨-, h2⟩
    exact List.noConfusion h2

theorem joinNl_getLast?_concat (ls : List PyStr) (l : PyStr) (hl : l ≠ []) :
    (joinNl (ls ++ [l])).getLast? = l.getLast? := by
  induction ls with
  | nil => rfl
  | cons x ls' ih =>
    rw [List.cons_append, joinNl_cons_of_ne_nil _ _ (by simp),
      List.getLast?_append_of_ne_nil _ (by
        intro he
        injection he),
      show ('\n' :: joinNl (ls' ++ [l])) = ['\n'] ++ joinNl (ls' ++ [l]) from rfl,
      List.getLast?_append_of_ne_nil _ (joinNl_ne_nil_concat ls' l hl)]
    exact ih

theorem joinNl_head?_cons (l : PyStr) (ls : List PyStr) (hl : l ≠ []) :
    (joinNl (l :: ls)).head? = l.head? := by
  cases ls with
  | nil => rfl
  | cons l2 rest =>
    rw [joinNl_cons_of_ne_nil _ _ (by simp), List.head?_append_of_ne_nil _ hl]

/-- A newline-joined list of three-hyphen-free lines is three-hyphen-free. -/
theorem joinNl_no_dashes (ls : List PyStr)
    (h : ∀ l ∈ ls, containsSub dashes l = false) :
    containsSub dashes (joinNl ls) = false := by
  induction ls with
  | nil => decide
  | cons l rest ih =>
    cases rest with
    | nil => exact h l (by simp)
    | cons l2 rest' =>
      rw [joinNl_cons_of_ne_nil _ _ (by simp), containsSub_eq_false_iff]
      intro hinf
      rcases infix_split_on_char dashes l (joinNl (l2 :: rest')) '\n' (by decide) hinf
        with hi | hi
      · have hcon := (containsSub_eq_true_iff _ _).mpr hi
        rw [h l (by simp)] at hcon
        exact Bool.noConfusion hcon
      · have hcon := (containsSub_eq_true_iff _ _).mpr hi
        rw [ih (fun x hx => h x (List.mem_cons_of_mem _ hx))] at hcon
        exact Bool.noConfusion hcon

theorem getLast?_of_suffix (suf l : PyStr) (h : suf <:+ l) (hne : suf ≠ []) :
    suf.getLast? = l.getLast? := by
  obtain ⟨pre, rfl⟩ := h
  rw [List.getLast?_append_of_ne_nil _ hne]

/-- No occurrence of `---` can start inside or straddle out of the block
`'\n' :: F ++ ['\n']` when `F` itself is three-hyphen-free. -/
theorem hocc_newline_block (F t : PyStr) (hF : containsSub dashes F = false) :
    ∀ suf, suf <:+ ('\n' :: F ++ ['\n']) → suf ≠ [] →
      dashes.isPrefixOf (suf ++ dashes ++ t) = false := by
  intro suf hsuf hne
  cases hbool : dashes.isPrefixOf (suf ++ dashes ++ t)
  · rfl
  exfalso
  have hpre : dashes <+: suf ++ dashes ++ t := List.isPrefixOf_iff_prefix.mp hbool
  have hlast : suf.getLast? = some '\n' := by
    rw [getLast?_of_suffix suf _ hsuf hne,
      show ('\n' :: F ++ ['\n'] : PyStr) = ('\n' :: F) ++ ['\n'] from by simp,
      List.getLast?_append_of_ne_nil _ (by simp)]
    rfl
  match suf, hne with
  | [a], _ =>
    have ha : a = '\n' := by simpa using hlast
    subst ha
    obtain ⟨t2, ht2⟩ := hpre
    injection ht2 with h1 h2
    exact absurd h1 (by decide)
  | [a, b], _ =>
    have hb : b = '\n' := by simpa using hlast
    subst hb
    obtain ⟨t2, ht2⟩ := hpre
    injection ht2 with h1 h2
    injection h2 with h3 h4
    exact absurd h3 (by decide)
  | a :: b :: c :: rr, _ =>
    have hlen : dashes.length ≤ (a :: b :: c :: rr).length := by
      simp [dashes]
    have hsufpre : (a :: b :: c :: rr) <+: (a :: b :: c :: rr) ++ (dashes ++ t) :=
      List.prefix_append _ _
    have hdsuf : dashes <+: (a :: b :: c :: rr) := by
      refine List.prefix_of_prefix_length_le ?_ hsufpre hlen
      rw [← List.append_assoc]
      exact hpre
    have hinf : dashes <:+: ('\n' :: F ++ ['\n']) :=
      List.IsInfix.trans (List.IsPrefix.isInfix hdsuf) (List.IsSuffix.isInfix hsuf)
    rcases List.infix_cons_iff.mp hinf with hp | hi
    · obtain ⟨t3, ht3⟩ := hp
      injection ht3 with h1 h2
      exact absurd h1 (by decide)
    · rcases infix_split_on_char dashes F [] '\n' (by decide) (by simpa using hi)
        with h5 | h5
      · have hcon := (containsSub_eq_true_iff _ _).mpr h5
        rw [hF] at hcon
        exact Bool.noConfusion hcon
      · rw [List.infix_nil] at h5
        exact absurd h5 (by decide)

theorem pySplit_succ (sep s : PyStr) (m : Nat) :
    pySplit sep s (m + 1)
      = match pySplitOnce sep s with
        | none => [s]
        | some (pre, post) => pre :: pySplit sep post m := rfl

theorem pySplit_zero (sep s : PyStr) : pySplit sep s 0 = [s] := rfl

/-- The round-trip for a nonempty well-formed metadata mapping. -/
theorem parse_encode_cons (e0 : PyStr × Value) (md' : List (PyStr × Value)) (body : PyStr)
    (hnd : ((e0 :: md').map Prod.fst).Nodup)
    (hwf : ∀ e ∈ e0 :: md', keyWF e.1 ∧ valueWF e.2) :
    parse_frontmatter (encodeRecord (e0 :: md') body)
      = .ok ((e0 :: md').map (fun e => (e.1, normalizeValue e.2)), pyStrip body) := by
  have hXstrip : pyStrip (('\n' :: '\n' :: body) ++ ['\n']) = pyStrip body := by
    rw [show (('\n' :: '\n' :: body) ++ ['\n'] : PyStr)
        = '\n' :: '\n' :: (body ++ ['\n']) from by simp,
      pyStrip_cons_ws _ _ (by decide), pyStrip_cons_ws _ _ (by decide),
      pyStrip_append_ws _ _ (by decide)]
  set lines := (e0 :: md').map (fun e => renderLine e.1 e.2) with hlines
  have hlines0 : lines = renderLine e0.1 e0.2 :: md'.map (fun e => renderLine e.1 e.2) := by
    rw [hlines, List.map_cons]
  have hlinesne : lines ≠ [] := by
    rw [hlines0]
    simp
  set F := joinNl lines with hF
  have hlinefacts : ∀ l ∈ lines, '\n' ∉ l ∧ containsSub dashes l = false
      ∧ pyStrip l = l ∧ l ≠ [] := by
    intro l hl
    rw [hlines] at hl
    obtain ⟨e, he, rfl⟩ := List.mem_map.mp hl
    obtain ⟨h1, h2, h3, h4, -⟩ := renderLine_wf e.1 e.2 (hwf e he).1 (hwf e he).2
    exact ⟨h1, h2, h3, h4⟩
  have hline0 : renderLine e0.1 e0.2 ∈ lines := by
    rw [hlines0]
    exact List.mem_cons_self _ _
  have hFdash : containsSub dashes F = false :=
    joinNl_no_dashes lines (fun l hl => (hlinefacts l hl).2.1)
  have hJ : joinNl (dashes :: lines ++ [dashes])
      = dashes ++ '\n' :: (F ++ '\n' :: dashes) := by
    rw [List.cons_append,
      joinNl_cons_of_ne_nil dashes (lines ++ [dashes]) (by simp),
      joinNl_append_singleton lines dashes hlinesne, hF]
  have hcontent : encodeRecord (e0 :: md') body
      = ([] : PyStr) ++ dashes
        ++ ((('\n' :: F) ++ ['\n']) ++ dashes ++ (('\n' :: '\n' :: body) ++ ['\n'])) := by
    show joinNl (dashes :: lines ++ [dashes]) ++ '\n' :: '\n' :: body ++ ['\n'] = _
    rw [hJ]
    simp
  have h1 : pySplitOnce dashes (encodeRecord (e0 :: md') body)
      = some ([], (('\n' :: F) ++ ['\n']) ++ dashes ++ (('\n' :: '\n' :: body) ++ ['\n'])) := by
    rw [hcontent]
    refine pySplitOnce_boundary dashes [] _ (by decide) (fun suf hs hne => ?_)
    rw [List.suffix_nil] at hs
    exact absurd hs hne
  have h2 : pySplitOnce dashes
      ((('\n' :: F) ++ ['\n']) ++ dashes ++ (('\n' :: '\n' :: body) ++ ['\n']))
      = some (('\n' :: F) ++ ['\n'], ('\n' :: '\n' :: body) ++ ['\n']) := by
    refine pySplitOnce_boundary dashes (('\n' :: F) ++ ['\n']) _ (by decide) ?_
    have := hocc_newline_block F (('\n' :: '\n' :: body) ++ ['\n']) hFdash
    intro suf hs hne
    refine this suf ?_ hne
    simpa using hs
  have hprefix : dashes.isPrefixOf (encodeRecord (e0 :: md') body) = true := by
    rw [hcontent]
    exact List.isPrefixOf_iff_prefix.mpr (by simp [List.prefix_append])
  have hsplit : pySplit dashes (encodeRecord (e0 :: md') body) 2
      = [[], ('\n' :: F) ++ ['\n'], ('\n' :: '\n' :: body) ++ ['\n']] := by
    rw [pySplit_succ, h1]
    show ([] : PyStr) :: pySplit dashes
      ((('\n' :: F) ++ ['\n']) ++ dashes ++ (('\n' :: '\n' :: body) ++ ['\n'])) 1 = _
    rw [pySplit_succ, h2]
    rfl
  have hFhead : ∀ c, F.head? = some c → isPyWs c = false := by
    intro c hc
    rw [hF, hlines0, joinNl_head?_cons _ _ (hlinefacts _ hline0).2.2.2] at hc
    exact head_of_pyStrip_eq_self _ (hlinefacts _ hline0).2.2.1 c hc
  have hFlast : ∀ c, F.getLast? = some c → isPyWs c = false := by
    intro c hc
    rcases List.eq_nil_or_concat (e0 :: md') with hmd0 | ⟨md'', elast, hmd1⟩
    · exact List.noConfusion hmd0
    · have hlines2 : lines = md''.map (fun e => renderLine e.1 e.2)
          ++ [renderLine elast.1 elast.2] := by
        rw [hlines, hmd1, List.concat_eq_append]
        exact List.map_append _ _ _
      have hlastmem : renderLine elast.1 elast.2 ∈ lines := by
        rw [hlines2]
        exact List.mem_append_right _ (List.mem_cons_self _ _)
      rw [hF, hlines2, joinNl_getLast?_concat _ _ (hlinefacts _ hlastmem).2.2.2] at hc
      exact getLast_of_pyStrip_eq_self _ (hlinefacts _ hlastmem).2.2.1 c hc
  have hstripfm : pyStrip (('\n' :: F) ++ ['\n']) = F := by
    rw [pyStrip_append_ws _ _ (by decide), pyStrip_cons_ws _ _ (by decide)]
    exact pyStrip_eq_self_of F hFhead hFlast
  have hfm : parseFMLines (splitChar '\n' (pyStrip (('\n' :: F) ++ ['\n'])))
      = .ok ((e0 :: md').map (fun e => (e.1, normalizeValue e.2))) := by
    rw [hstripfm, hF, splitChar_joinNl lines hlinesne (fun l hl => (hlinefacts l hl).1),
      hlines]
    unfold parseFMLines
    rw [parseFMLines_fold (e0 :: md') [] hwf hnd (fun e he => rfl)]
    rw [List.nil_append]
  unfold parse_frontmatter
  rw [if_pos hprefix, hsplit]
  show (do
    let metadata ← parseFMLines (splitChar '\n' (pyStrip (('\n' :: F) ++ ['\n'])))
    pure (metadata, pyStrip (('\n' :: '\n' :: body) ++ ['\n']))) = _
  rw [hfm, hXstrip]
  rfl

/-- C2 (corrected): decode(encode(metadata, body)) recovers the metadata
mapping and the trimmed body, provided the mapping is well-formed: keys
unique, trimmed, colon-, newline- and three-hyphen-free; float values with
an exact short decimal expansion; string values nonempty, trimmed,
single-line, three-hyphen-free and not themselves coercible to a number or
boolean. Floats with no fractional part come back normalized to integers
(and, uncorrected, a string value such as "1" comes back as the integer 1,
so the claim as stated is false). -/
theorem C2_roundtrip_amended (md : List (PyStr × Value)) (body : PyStr)
    (h : recordWF md) :
    parse_frontmatter (encodeRecord md body)
      = .ok (md.map (fun e => (e.1, normalizeValue e.2)), pyStrip body) := by
  obtain ⟨hnd, hwf⟩ := h
  have hXstrip : pyStrip (('\n' :: '\n' :: body) ++ ['\n']) = pyStrip body := by
    rw [show (('\n' :: '\n' :: body) ++ ['\n'] : PyStr)
        = '\n' :: '\n' :: (body ++ ['\n']) from by simp,
      pyStrip_cons_ws _ _ (by decide), pyStrip_cons_ws _ _ (by decide),
      pyStrip_append_ws _ _ (by decide)]
  cases md with
  | nil =>
    have hcontent : encodeRecord [] body
        = ([] : PyStr) ++ dashes ++ (['\n'] ++ dashes ++ (('\n' :: '\n' :: body) ++ ['\n'])) := by
      show joinNl (dashes :: [] ++ [dashes]) ++ '\n' :: '\n' :: body ++ ['\n'] = _
      simp [joinNl, dashes]
    have h1 : pySplitOnce dashes (encodeRecord [] body)
        = some ([], ['\n'] ++ dashes ++ (('\n' :: '\n' :: body) ++ ['\n'])) := by
      rw [hcontent]
      refine pySplitOnce_boundary dashes [] _ (by decide) (fun suf hs hne => ?_)
      rw [List.suffix_nil] at hs
      exact absurd hs hne
    have h2 : pySplitOnce dashes (['\n'] ++ dashes ++ (('\n' :: '\n' :: body) ++ ['\n']))
        = some (['\n'], ('\n' :: '\n' :: body) ++ ['\n']) := by
      refine pySplitOnce_boundary dashes ['\n'] _ (by decide) (fun suf hs hne => ?_)
      obtain ⟨p, hp⟩ := hs
      cases p with
      | nil =>
        rw [List.nil_append] at hp
        subst hp
        rfl
      | cons y p' =>
        injection hp with h3 h4
        rcases List.append_eq_nil.mp h4 with ⟨-, h5⟩
        exact absurd h5 hne
    have hprefix : dashes.isPrefixOf (encodeRecord [] body) = true := by
      rw [hcontent]
      exact List.isPrefixOf_iff_prefix.mpr (by simp [List.prefix_append])
    have hsplit : pySplit dashes (encodeRecord [] body) 2
        = [[], ['\n'], ('\n' :: '\n' :: body) ++ ['\n']] := by
      rw [pySplit_succ, h1]
      show ([] : PyStr) :: pySplit dashes
        (['\n'] ++ dashes ++ (('\n' :: '\n' :: body) ++ ['\n'])) 1 = _
      rw [pySplit_succ, h2]
      rfl
    unfold parse_frontmatter
    rw [if_pos hprefix, hsplit]
    show (do
      let metadata ← parseFMLines (splitChar '\n' (pyStrip ['\n']))
      pure (metadata, pyStrip (('\n' :: '\n' :: body) ++ ['\n']))) = _
    rw [hXstrip]
    rfl
  | cons e0 md' => exact parse_encode_cons e0 md' body hnd hwf

/-! ### Specification-side definitions

These follow the wording of the specification (not the source) and are
compared with the source-derived definitions above. -/

/-- The confidence update rule exactly as the specification states it:
`r = 0` decays with floor `0.10`; `1 ≤ r ≤ 3` adds `0.05` capped at `0.50`;
`4 ≤ r ≤ 6` adds `0.10` capped at `0.70`; `r ≥ 7` adds `0.15` capped at
`0.85`. -/
def specNewConfidence (cOld : ℚ) (r : ℕ) : ℚ :=
  if r = 0 then max (10 / 100) (cOld - 5 / 100)
  else if 1 ≤ r ∧ r ≤ 3 then min (50 / 100) (cOld + 5 / 100)
  else if 4 ≤ r ∧ r ≤ 6 then min (70 / 100) (cOld + 10 / 100)
  else min (85 / 100) (cOld + 15 / 100)

/-- The confidence cap of the tier selected by a relevance count `r ≥ 1`. -/
def tierCap (r : ℕ) : ℚ :=
  if r ≤ 3 then 50 / 100 else if r ≤ 6 then 70 / 100 else 85 / 100

/-- The confidence increment of the tier selected by a relevance count `r ≥ 1`. -/
def tierInc (r : ℕ) : ℚ :=
  if r ≤ 3 then 5 / 100 else if r ≤ 6 then 10 / 100 else 15 / 100

/-- The first keyword as the specification words it: the record name,
lowercased, with hyphens and underscores replaced by spaces. -/
def specKeyword (name : PyStr) : PyStr :=
  name.map (fun c =>
    let d := c.toLower
    if d = '-' ∨ d = '_' then ' ' else d)

/-! ### Theorems -/

section Theorems

/-- C1: the code-side piecewise rule agrees with the specification's rule at
every old confidence and relevance count; the confidence default is `0.3`
when the field is absent; and `r = 10`, `c_old = 0.80` yields `0.85`. -/
theorem C1_confidence_update_rule :
    (∀ (c : ℚ) (r : ℕ), newConfidence c r = specNewConfidence c r)
    ∧ (∀ metadata, lookupVal metadata confidenceKey = none →
        oldConfidenceOf metadata = .ok (3 / 10))
    ∧ newConfidence (80 / 100) 10 = 85 / 100 := by
  refine ⟨fun c r => ?_, fun metadata h => ?_, by norm_num [newConfidence]⟩
  · unfold newConfidence specNewConfidence
    split_ifs <;> first | (exfalso; omega) | norm_num
  · unfold oldConfidenceOf
    rw [h]
    norm_num [Option.getD, pyFloat]

/-- C6 counterexample: with `c_old = 0.9 ∈ [0, 1]` and `r = 1`, a single
pass moves the confidence to `0.5`, a strict decrease — the update is not
monotone for confidences above the tier cap. -/
theorem C6_counterexample :
    newConfidence (9 / 10) 1 = 1 / 2 ∧ (1 / 2 : ℚ) < 9 / 10
      ∧ (0 : ℚ) ≤ 9 / 10 ∧ (9 / 10 : ℚ) ≤ 1 := by
  norm_num [newConfidence]

/-- C6 (amended): for `r ≥ 1` and `c_old ∈ [0, 1]`, a single pass never
decreases the confidence provided `c_old` does not exceed the tier cap for
`r`, and in all cases the confidence rises by at most the tier increment. -/
theorem C6_monotone_bounded_amended (c : ℚ) (r : ℕ) (hr : 1 ≤ r)
    (_h0 : 0 ≤ c) (_h1 : c ≤ 1) :
    (c ≤ tierCap r → c ≤ newConfidence c r)
    ∧ newConfidence c r ≤ c + tierInc r := by
  constructor
  · intro hcap
    unfold newConfidence
    unfold tierCap at hcap
    split_ifs with hz h3 h6 <;> first | omega | skip
    · rw [if_pos h3] at hcap
      rw [le_min_iff]
      constructor
      · norm_num at hcap ⊢
        linarith
      · linarith
    · rw [if_neg h3, if_pos h6] at hcap
      rw [le_min_iff]
      constructor
      · norm_num at hcap ⊢
        linarith
      · linarith
    · rw [if_neg h3, if_neg h6] at hcap
      rw [le_min_iff]
      constructor
      · norm_num at hcap ⊢
        linarith
      · linarith
  · unfold newConfidence tierInc
    split_ifs <;>
      first
        | (exfalso; omega)
        | exact le_trans (min_le_right _ _) (by norm_num)

/-- C6 witness: the amended statement applied at `c_old = 0.4`, `r = 4`. -/
theorem C6_monotone_bounded_witness :
    ((2 / 5 : ℚ) ≤ tierCap 4 → (2 / 5 : ℚ) ≤ newConfidence (2 / 5) 4)
    ∧ newConfidence (2 / 5) 4 ≤ 2 / 5 + tierInc 4 :=
  C6_monotone_bounded_amended (2 / 5) 4 (by norm_num) (by norm_num) (by norm_num)

/-- C3: the codec does NOT always degrade gracefully: a frontmatter value
that parses as a non-finite float crashes it.  On `x: inf`, `float("inf")`
succeeds and the following `int(value)` raises an uncaught `OverflowError`
(only `ValueError` is handled); the whole decode fails instead of returning
a `(metadata, body)` pair. -/
theorem C3_nonfinite_value_crashes_codec :
    parse_frontmatter (("---\nx: inf\n---\nbody").toList) = .error "OverflowError"
    ∧ parse_frontmatter (("---\nx: nan\n---\nbody").toList) = .error "AttributeError"
    ∧ (∀ content, ¬ dashes.isPrefixOf content → parse_frontmatter content = .ok ([], content)) := by
  refine ⟨by rfl, by rfl, fun content h => ?_⟩
  unfold parse_frontmatter
  rw [if_neg h]

unseal Rat.add Rat.mul Rat.inv Rat.sub Rat.ofScientific in
/-- C4: a record whose decoded metadata has a non-numeric `confidence`
string is NOT handled with best-effort defaults: `float("high")` raises an
uncaught `ValueError` and the whole multi-record pass aborts, leaving the
remaining records unprocessed.  The same well-formed second record evolves
fine when the pass reaches it. -/
theorem C4_malformed_record_aborts_pass :
    cmd_evolve
        [(('a' :: []), ("---\nconfidence: high\n---\nx").toList),
         (('b' :: []), ("---\nconfidence: 0.3\n---\ny").toList)]
        [("{}").toList] (('T' :: 'S' :: [])) = .error "ValueError"
    ∧ (cmd_evolve
        [(('b' :: []), ("---\nconfidence: 0.3\n---\ny").toList)]
        [("{}").toList] (('T' :: 'S' :: []))).isOk = true := by
  constructor
  · rfl
  · decide

/-- `json.loads` of the empty string fails. -/
theorem jsonLoads_nil : jsonLoads [] = none := rfl

/-- C9: the observation-log reader is total and line-local: a line that
strips to empty contributes nothing, a line that fails JSON parsing
contributes nothing, a line that parses contributes exactly its value in
file order; and a log of one valid and one invalid line yields exactly one
observation. -/
theorem C9_log_reader_resilient :
    (∀ l ls, pyStrip l = [] → loadObservations (l :: ls) = loadObservations ls)
    ∧ (∀ l ls, jsonLoads (pyStrip l) = none → loadObservations (l :: ls) = loadObservations ls)
    ∧ (∀ l ls v, jsonLoads (pyStrip l) = some v →
        loadObservations (l :: ls) = v :: loadObservations ls)
    ∧ loadObservations [("\x7b\"x\": 1\x7d").toList, ("not json").toList]
        = [Json.obj [(('x' :: []), Json.int 1)]] := by
  refine ⟨fun l ls h => ?_, fun l ls h => ?_, fun l ls v h => ?_, by rfl⟩
  · simp [loadObservations, List.filterMap_cons, h]
  · by_cases hl : pyStrip l = [] <;>
      simp [loadObservations, List.filterMap_cons, hl, h]
  · have hl : pyStrip l ≠ [] := by
      intro he
      rw [he, jsonLoads_nil] at h
      exact Option.noConfusion h
    simp [loadObservations, List.filterMap_cons, hl, h]

/-- C9 witness: the reader lemmas applied to concrete lines. -/
theorem C9_log_reader_witness :
    loadObservations [(' ' :: ' ' :: []), ('5' :: [])] = loadObservations [('5' :: [])]
    ∧ loadObservations [('x' :: [])] = loadObservations []
    ∧ loadObservations [('5' :: [])] = Json.int 5 :: loadObservations [] :=
  ⟨C9_log_reader_resilient.1 _ _ (by rfl),
   C9_log_reader_resilient.2.1 _ _ (by rfl),
   C9_log_reader_resilient.2.2.1 _ _ _ (by rfl)⟩

/-- C10: the reader does not require observations to be JSON objects — any
line parsing as any JSON value (number, string, array, boolean, null or
object) is included as an observation, and such scalar observations
participate in relevance counting. -/
theorem C10_nonobject_observations_included :
    (∀ l ls v, jsonLoads (pyStrip l) = some v →
        loadObservations (l :: ls) = v :: loadObservations ls)
    ∧ loadObservations
        [("5").toList, ("\"s\"").toList, ("[1, 2]").toList, ("true").toList, ("null").toList]
        = [Json.int 5, Json.str ('s' :: []), Json.arr [Json.int 1, Json.int 2],
           Json.bool true, Json.null]
    ∧ relevantCount [('4' :: '2' :: [])] [Json.int 42] = 1 := by
  refine ⟨fun l ls v h => ?_, by rfl, by rfl⟩
  have hl : pyStrip l ≠ [] := by
    intro he
    rw [he, jsonLoads_nil] at h
    exact Option.noConfusion h
  simp [loadObservations, List.filterMap_cons, hl, h]

/-- C10 witness: a scalar JSON line included via the theorem's first part. -/
theorem C10_nonobject_observations_witness :
    loadObservations [('n' :: 'u' :: 'l' :: 'l' :: [])] = Json.null :: loadObservations [] :=
  C10_nonobject_observations_included.1 _ _ _ (by rfl)

/-- The code's `name.lower().replace("-", " ").replace("_", " ")` agrees with
the specification's "lowercased with hyphens and underscores replaced by
spaces". -/
theorem replace_lower_eq_specKeyword (name : PyStr) :
    pyReplaceChar '_' ' ' (pyReplaceChar '-' ' ' (toLowerStr name)) = specKeyword name := by
  unfold pyReplaceChar toLowerStr specKeyword
  rw [List.map_map, List.map_map]
  refine List.map_congr_left (fun c _ => ?_)
  simp only [Function.comp_apply]
  by_cases h1 : c.toLower = '-'
  · simp [h1]
  · by_cases h2 : c.toLower = '_' <;> simp [h1, h2]

unseal Rat.add Rat.mul Rat.inv Rat.sub Rat.ofScientific in
/-- C8 counterexample: in the claim's own scenario (`name: build-retry`,
`confidence: 0.40`, four observations containing "build retry") the
relevance count is 4, but the `r ≤ 6` tier adds `0.10`, giving a new
confidence of `0.50`, not the claimed `0.45`. -/
theorem C8_counterexample :
    pyFloatParse (("0.40").toList) = .finite (2 / 5)
    ∧ relevantCount [("build retry").toList]
        [Json.obj [(("msg").toList, Json.str (("build retry done").toList))],
         Json.obj [(("msg").toList, Json.str (("build retry done").toList))],
         Json.obj [(("msg").toList, Json.str (("build retry done").toList))],
         Json.obj [(("msg").toList, Json.str (("build retry done").toList))]] = 4
    ∧ newConfidence (2 / 5) 4 = 1 / 2
    ∧ ¬ ((1 / 2 : ℚ) = 45 / 100) := by
  refine ⟨by decide, by rfl, by norm_num [newConfidence], by norm_num⟩

unseal Rat.add Rat.mul Rat.inv Rat.sub Rat.ofScientific in
/-- C8 (amended): the keyword set is exactly the record name (or filename
stem when absent), lowercased with hyphens/underscores replaced by spaces,
plus the lowercased string form of `tool` when present; the relevance count
is the number of observations whose lowercased JSON serialization contains
some keyword; and the `build-retry`/`0.40` scenario with four matching
observations yields `r = 4` and new confidence `0.50` (the `r ≤ 6` tier
adds `0.10`). -/
theorem C8_keywords_and_relevance_amended :
    (∀ md stem s, lookupVal md nameKey = some (.str s) →
        keywordsOf md stem = .ok (specKeyword s ::
          (match lookupVal md toolKey with
           | some v => [toLowerStr (renderValue v)]
           | none => [])))
    ∧ (∀ md stem, lookupVal md nameKey = none →
        keywordsOf md stem = .ok (specKeyword stem ::
          (match lookupVal md toolKey with
           | some v => [toLowerStr (renderValue v)]
           | none => [])))
    ∧ (∀ kws obs, relevantCount kws obs
        = (obs.filter (fun o =>
            decide (∃ kw ∈ kws, containsSub kw (toLowerStr (jsonDumps o)) = true))).length)
    ∧ relevantCount [specKeyword (("build-retry").toList)]
        [Json.obj [(("msg").toList, Json.str (("build retry done").toList))],
         Json.obj [(("msg").toList, Json.str (("build retry done").toList))],
         Json.obj [(("msg").toList, Json.str (("build retry done").toList))],
         Json.obj [(("msg").toList, Json.str (("build retry done").toList))]] = 4
    ∧ evolveRecord (("build-retry").toList)
        (("---\nname: build-retry\nconfidence: 0.40\n---\n\nBody.\n").toList)
        [Json.obj [(("msg").toList, Json.str (("build retry done").toList))],
         Json.obj [(("msg").toList, Json.str (("build retry done").toList))],
         Json.obj [(("msg").toList, Json.str (("build retry done").toList))],
         Json.obj [(("msg").toList, Json.str (("build retry done").toList))]]
        (('T' :: 'S' :: []))
        = .ok (true, some
            (("---\nname: build-retry\nconfidence: 0.5\nlast_evolved: TS\n---\n\nBody.\n").toList)) := by
  refine ⟨fun md stem str hname => ?_, fun md stem hname => ?_, fun kws obs => ?_, by rfl, by decide⟩
  · unfold keywordsOf
    rw [hname]
    cases htool : lookupVal md toolKey <;>
      simp [htool, replace_lower_eq_specKeyword]
  · unfold keywordsOf
    rw [hname]
    cases htool : lookupVal md toolKey <;>
      simp [htool, replace_lower_eq_specKeyword]
  · unfold relevantCount
    rw [List.countP_eq_length_filter]
    refine congrArg List.length (List.filter_congr (fun o _ => ?_))
    by_cases h : ∃ kw ∈ kws, containsSub kw (toLowerStr (jsonDumps o)) = true
    · rw [decide_eq_true h]
      exact List.any_eq_true.mpr h
    · rw [decide_eq_false h]
      exact List.any_eq_false.mpr (by simpa using h)

/-- C8 witness: the amended keyword characterization applied to a concrete
record carrying a `tool` field and an absent `name`. -/
theorem C8_keywords_witness :
    keywordsOf [(toolKey, Value.str ('G' :: 'i' :: 't' :: []))] (("My_Stem").toList)
      = .ok [specKeyword (("My_Stem").toList), toLowerStr (renderValue (Value.str ('G' :: 'i' :: 't' :: [])))] :=
  C8_keywords_and_relevance_amended.2.1 _ _ (by rfl)

/-- One zero-relevance decay pass on a stored two-decimal confidence
`k / 100`, expressed on the numerator `k`: confidences at or below `0.14`
move to the floor `0.10` (or stay when already there), higher ones lose
`0.05`. -/
def decayNum (k : Nat) : Nat := if k ≤ 14 then 10 else k - 5

set_option maxRecDepth 4000 in
unseal Rat.add Rat.mul Rat.inv Rat.sub Rat.ofScientific in
/-- `decayStep` on every two-decimal confidence in `[0, 1]` agrees with
`decayNum` on the numerator. -/
theorem decayStep_hundredth :
    ∀ k : Fin 101, decayStep ((k.val : ℚ) / 100) = (decayNum k.val : ℚ) / 100 := by
  decide

/-- `decayNum` keeps two-decimal numerators within `[10, 100]`. -/
theorem decayNum_ge (j : Nat) : 10 ≤ decayNum j := by
  unfold decayNum
  split_ifs <;> omega

/-- `decayNum` does not leave `[0, 100]`. -/
theorem decayNum_le (j : Nat) (h : j ≤ 100) : decayNum j ≤ 100 := by
  unfold decayNum
  split_ifs <;> omega

/-- Iterating `decayStep` on a two-decimal confidence follows `decayNum` on
the numerator and stays within `[0, 100]`. -/
theorem iterDecay_hundredth (k : Nat) (hk : k ≤ 100) (m : Nat) :
    iterDecay m ((k : ℚ) / 100) = (decayNum^[m] k : ℚ) / 100 ∧ decayNum^[m] k ≤ 100 := by
  induction m with
  | zero => exact ⟨by simp [iterDecay], hk⟩
  | succ n ih =>
    obtain ⟨h1, h2⟩ := ih
    refine ⟨?_, ?_⟩
    · have step := decayStep_hundredth ⟨decayNum^[n] k, by omega⟩
      unfold iterDecay at h1 ⊢
      rw [Function.iterate_succ_apply', h1, Function.iterate_succ_apply']
      exact step
    · rw [Function.iterate_succ_apply']
      exact decayNum_le _ h2

set_option maxRecDepth 4000 in
/-- Eighteen decay passes reach the floor numerator `10` from every
two-decimal confidence in `[0, 1]`. -/
theorem decayNum_iter18 : ∀ k : Fin 101, decayNum^[18] k.val = 10 := by
  decide

unseal Rat.add Rat.mul Rat.inv Rat.sub Rat.ofScientific in
/-- C7 counterexample: from the starting confidence `0.101`, a zero-relevance
pass computes `c_new = 0.10` but `|c_new - c_old| = 0.001` is within the
noise guard, so the record is never rewritten: the confidence stays `0.101`
forever and never equals `0.10`. -/
theorem C7_counterexample :
    decayStep ((101 : ℚ) / 1000) = 101 / 1000
    ∧ ¬ ∃ N, iterDecay N ((101 : ℚ) / 1000) = 1 / 10 := by
  have hfix : decayStep ((101 : ℚ) / 1000) = 101 / 1000 := by decide
  refine ⟨hfix, ?_⟩
  rintro ⟨N, hN⟩
  have hstay : iterDecay N ((101 : ℚ) / 1000) = 101 / 1000 :=
    Function.iterate_fixed hfix N
  rw [hstay] at hN
  norm_num at hN

/-- C7 (amended): from every stored two-decimal confidence `k / 100` with
`k ≤ 100`, zero-relevance passes never produce a confidence below `0.10`,
and after at most 18 passes the confidence equals exactly `0.10` and remains
`0.10` from then on. -/
theorem C7_decay_floor_amended (k : Nat) (hk : k ≤ 100) :
    (∀ m, 1 ≤ m → (1 : ℚ) / 10 ≤ iterDecay m ((k : ℚ) / 100))
    ∧ ∀ m, 18 ≤ m → iterDecay m ((k : ℚ) / 100) = 1 / 10 := by
  constructor
  · intro m hm
    obtain ⟨h1, _⟩ := iterDecay_hundredth k hk m
    rw [h1]
    have h10 : 10 ≤ decayNum^[m] k := by
      cases m with
      | zero => omega
      | succ n => rw [Function.iterate_succ_apply']; exact decayNum_ge _
    have hcast : (10 : ℚ) ≤ (decayNum^[m] k : ℚ) := by exact_mod_cast h10
    linarith
  · intro m hm
    obtain ⟨h1, _⟩ := iterDecay_hundredth k hk m
    have hsplit : decayNum^[m] k = decayNum^[m - 18] (decayNum^[18] k) := by
      rw [← Function.iterate_add_apply]
      congr 1
      omega
    have h18 : decayNum^[18] k = 10 := decayNum_iter18 ⟨k, by omega⟩
    have hfix : decayNum^[m - 18] 10 = 10 :=
      Function.iterate_fixed (by rfl) (m - 18)
    rw [h1, hsplit, h18, hfix]
    norm_num

/-- C7 witness: the amended statement applied at the starting confidence
`0.30`. -/
theorem C7_decay_floor_witness :
    ((1 : ℚ) / 10 ≤ iterDecay 1 ((30 : ℚ) / 100))
    ∧ iterDecay 20 ((30 : ℚ) / 100) = 1 / 10 :=
  ⟨(C7_decay_floor_amended 30 (by norm_num)).1 1 (by norm_num),
   (C7_decay_floor_amended 30 (by norm_num)).2 20 (by norm_num)⟩

/-- Setting a key makes it present with the new value. -/
theorem lookupVal_setVal_self {α : Type} (l : List (PyStr × α)) (k : PyStr) (v : α) :
    lookupVal (setVal l k v) k = some v := by
  induction l with
  | nil => simp [setVal, lookupVal]
  | cons e rest ih =>
    obtain ⟨k0, v0⟩ := e
    by_cases h : k0 = k <;> simp [setVal, lookupVal, h, ih]

/-- Setting a key leaves every other key's value unchanged. -/
theorem lookupVal_setVal_ne {α : Type} (l : List (PyStr × α)) (k k' : PyStr) (v : α)
    (h : k' ≠ k) : lookupVal (setVal l k v) k' = lookupVal l k' := by
  induction l with
  | nil =>
    simp only [setVal, lookupVal]
    rw [if_neg (Ne.symm h)]
  | cons e rest ih =>
    obtain ⟨k0, v0⟩ := e
    by_cases h0 : k0 = k
    · subst h0
      simp [setVal, lookupVal, Ne.symm h, h]
    · by_cases h1 : k0 = k' <;> simp [setVal, lookupVal, h0, h1, ih, h]

/-- Setting a key preserves the ordered list of keys outside a predicate
that rejects the set key. -/
theorem keys_setVal_filter {α : Type} (l : List (PyStr × α)) (k : PyStr) (v : α)
    (p : PyStr → Bool) (hp : p k = false) :
    ((setVal l k v).map Prod.fst).filter p = (l.map Prod.fst).filter p := by
  induction l with
  | nil => simp [setVal, hp]
  | cons e rest ih =>
    obtain ⟨k0, v0⟩ := e
    by_cases h : k0 = k
    · subst h
      simp [setVal, hp]
    · simp [setVal, h, List.filter_cons]
      split_ifs <;> simp [ih]

/-- C5: when the confidence change is within the `0.001` noise guard the
record is not marked evolved and nothing is rewritten; when it exceeds the
guard, exactly `confidence` (rounded to two decimals) and `last_evolved`
(the timestamp) are set, every other key keeps its value and relative
order, and the record is re-encoded with the original body. -/
theorem C5_frame_effect (md : List (PyStr × Value)) (body ts : PyStr)
    (cOld cNew : ℚ) :
    (|cNew - cOld| ≤ 1 / 1000 → applyEvolution md body cOld cNew ts = (false, none))
    ∧ (1 / 1000 < |cNew - cOld| →
        applyEvolution md body cOld cNew ts
          = (true, some (encodeRecord
              (setVal (setVal md confidenceKey (.float (pyRound2 cNew))) lastEvolvedKey (.str ts))
              body))
        ∧ lookupVal (setVal (setVal md confidenceKey (.float (pyRound2 cNew))) lastEvolvedKey (.str ts))
            confidenceKey = some (.float (pyRound2 cNew))
        ∧ lookupVal (setVal (setVal md confidenceKey (.float (pyRound2 cNew))) lastEvolvedKey (.str ts))
            lastEvolvedKey = some (.str ts)
        ∧ (∀ k, k ≠ confidenceKey → k ≠ lastEvolvedKey →
            lookupVal (setVal (setVal md confidenceKey (.float (pyRound2 cNew))) lastEvolvedKey (.str ts)) k
              = lookupVal md k)
        ∧ ((setVal (setVal md confidenceKey (.float (pyRound2 cNew))) lastEvolvedKey (.str ts)).map
              Prod.fst).filter (fun k => decide (k ≠ confidenceKey) && decide (k ≠ lastEvolvedKey))
            = (md.map Prod.fst).filter
                (fun k => decide (k ≠ confidenceKey) && decide (k ≠ lastEvolvedKey))) := by
  have hkeys : confidenceKey ≠ lastEvolvedKey := by decide
  constructor
  · intro h
    unfold applyEvolution
    rw [if_neg (not_lt.mpr h)]
  · intro h
    refine ⟨?_, ?_, ?_, ?_, ?_⟩
    · unfold applyEvolution
      rw [if_pos h]
    · rw [lookupVal_setVal_ne _ _ _ _ hkeys, lookupVal_setVal_self]
    · exact lookupVal_setVal_self _ _ _
    · intro k hkc hkl
      rw [lookupVal_setVal_ne _ _ _ _ hkl, lookupVal_setVal_ne _ _ _ _ hkc]
    · rw [keys_setVal_filter, keys_setVal_filter]
      · simp
      · simp

/-- C5 witness: the frame conditions at a concrete record, for both the
no-op branch (`0.3005 → 0.3`) and the rewrite branch (`0.4 → 0.5`). -/
theorem C5_frame_effect_witness :
    applyEvolution [(nameKey, Value.str ('n' :: []))] ('B' :: []) (3005 / 10000) (3 / 10)
        ('T' :: []) = (false, none)
    ∧ applyEvolution [(nameKey, Value.str ('n' :: []))] ('B' :: []) (2 / 5) (1 / 2)
        ('T' :: [])
        = (true, some (encodeRecord
            (setVal (setVal [(nameKey, Value.str ('n' :: []))] confidenceKey
                (.float (pyRound2 (1 / 2)))) lastEvolvedKey (.str ('T' :: [])))
            ('B' :: []))) :=
  ⟨(C5_frame_effect _ _ _ _ _).1 (by rw [abs_le]; constructor <;> norm_num),
   ((C5_frame_effect _ _ _ _ _).2 (by rw [lt_abs]; left; norm_num)).1⟩

unseal Rat.add Rat.mul Rat.inv Rat.sub in
/-- C2 witness: a concrete record with one value of each supported type
round-trips through the codec via the theorem, the quarter float surviving
as a float and the body coming back trimmed. -/
theorem C2_roundtrip_witness :
    recordWF [(("name").toList, Value.str ("build-retry").toList),
              (("confidence").toList, Value.float (1 / 4)),
              (("count").toList, Value.int 3),
              (("flag").toList, Value.bool true)]
    ∧ parse_frontmatter (encodeRecord
        [(("name").toList, Value.str ("build-retry").toList),
         (("confidence").toList, Value.float (1 / 4)),
         (("count").toList, Value.int 3),
         (("flag").toList, Value.bool true)] ((" body ").toList))
      = .ok ([(("name").toList, Value.str ("build-retry").toList),
              (("confidence").toList, Value.float (1 / 4)),
              (("count").toList, Value.int 3),
              (("flag").toList, Value.bool true)].map
                (fun e => (e.1, normalizeValue e.2)),
             pyStrip ((" body ").toList)) :=
  ⟨by decide, C2_roundtrip_amended _ _ (by decide)⟩

unseal Rat.add Rat.mul Rat.inv Rat.sub in
/-- C2 counterexample: the string value "1" does not round-trip — it decodes
back as the integer 1, a different value, so decode(encode(metadata, body))
does not always yield a metadata mapping equal to the original. -/
theorem C2_counterexample :
    parse_frontmatter (encodeRecord [(("note").toList, Value.str ("1").toList)] (("b").toList))
      = .ok ([(("note").toList, Value.int 1)], ("b").toList)
    ∧ Value.int 1 ≠ Value.str ("1").toList := by
  refine ⟨by decide, by decide⟩

end Theorems

end InstinctCLI
